import Mathlib

/-!
# CartesianTree: binary search tree, treap and level width

Shallow embedding of `task.cpp`.  Pointers to heap nodes become values of an
inductive type (`Node.null` is the null pointer); the in-place updates of
child links become functions returning the updated subtree.  The counters of
`countWidth` are C++ `int`s; they are modelled as `Nat`, which agrees with the
machine arithmetic for every tree with fewer than `2^31` nodes.
-/

namespace CartesianTree

/-! ## Data model -/

/-- The comparator `DefaultComparator<int64_t>`: `l < r`. -/
def DefaultComparator (l r : Int) : Bool := decide (l < r)

/-- A possibly null pointer to a node.  `D` is what a node stores besides its
two child links: the value for `Tree::Node`, the value and the priority for
`Treap::Node`. -/
inductive Node (D : Type) where
  | null : Node D
  | mk (data : D) (left : Node D) (right : Node D) : Node D
  deriving DecidableEq

/-- The data stored in a `Treap::Node` besides its links. -/
structure Prioritized (T : Type) where
  value : T
  priority : Nat
  deriving DecidableEq

namespace Node

variable {D : Type}

/-- The test `!node` of the source. -/
def isNull : Node D → Bool
  | null => true
  | mk _ _ _ => false

/-- Number of nodes reachable from a pointer. -/
def size : Node D → Nat
  | null => 0
  | mk _ l r => l.size + r.size + 1

/-- In-order (left, node, right) sequence of the stored data. -/
def toList : Node D → List D
  | null => []
  | mk d l r => l.toList ++ d :: r.toList

/-- Number of nodes at depth `d` below (and including, for `d = 0`) a pointer. -/
def levelWidth : Node D → Nat → Nat
  | null, _ => 0
  | mk _ _ _, 0 => 1
  | mk _ l r, d + 1 => l.levelWidth d + r.levelWidth d

/-- Number of levels of a tree. -/
def height : Node D → Nat
  | null => 0
  | mk _ l r => max l.height r.height + 1

/-- The largest number of nodes at any single depth, level 0 included. -/
def maxLevelWidth (t : Node D) : Nat :=
  ((List.range t.height).map t.levelWidth).foldl max 0

end Node

/-! ## ITree::countWidth -/

section countWidth

variable {D : Type}

/-- The two `if (curr->child) { nodes.push(child); nextLayerW++; }` statements:
the state is the queue together with `nextLayerW`. -/
def pushChild (child : Node D) (st : List (Node D) × Nat) : List (Node D) × Nat :=
  if child.isNull then st else (st.1 ++ [child], st.2 + 1)

/-- The loop `for (i = 0; i < currentLayerW; i++)` of `countWidth`, with the
number of iterations left as first argument.  The result is the queue and
`nextLayerW` after the loop; `none` stands for `front()` on an empty queue or
a null dereference. -/
def forLoop : Nat → List (Node D) → Nat → Option (List (Node D) × Nat)
  | 0, nodes, nextLayerW => some (nodes, nextLayerW)
  | _ + 1, [], _ => none
  | _ + 1, Node.null :: _, _ => none
  | k + 1, Node.mk _ l r :: nodes, nextLayerW =>
    let st := pushChild l (pushChild r (nodes, nextLayerW))
    forLoop k st.1 st.2

/-- The loop `while (!nodes.empty())` of `countWidth`, bounded by a number of
iterations.  The result is `(currentLayerW, maxWidth)` at loop exit; `none`
when the bound is exhausted or the body fails. -/
def whileLoop : Nat → List (Node D) → Nat → Nat → Option (Nat × Nat)
  | _, [], currentLayerW, maxWidth => some (currentLayerW, maxWidth)
  | 0, _ :: _, _, _ => none
  | fuel + 1, n :: ns, currentLayerW, maxWidth =>
    match forLoop currentLayerW (n :: ns) 0 with
    | none => none
    | some (nodes, nextLayerW) =>
      whileLoop fuel nodes nextLayerW (if nextLayerW > maxWidth then nextLayerW else maxWidth)

/-- The function `ITree::countWidth`.  The while loop runs once per level, so
`root.size + 1` iterations are allowed. -/
def countWidth (root : Node D) : Option Nat :=
  if root.isNull then some 0
  else
    match whileLoop (root.size + 1) [root] 1 0 with
    | none => none
    | some (currentLayerW, maxWidth) => some (max currentLayerW maxWidth)

end countWidth

/-! ## Tree -/

namespace Tree

variable {T : Type}

/-- The loop `while (curr)` of `Tree::add`, started at `curr`; the result is the
subtree at `curr` after the loop. -/
def addLoop (comp : T → T → Bool) (value : T) : Node T → Node T
  | Node.null => Node.null
  | Node.mk x l r =>
    if !comp value x then
      if r.isNull then Node.mk x l (Node.mk value Node.null Node.null)
      else Node.mk x l (addLoop comp value r)
    else
      if l.isNull then Node.mk x (Node.mk value Node.null Node.null) r
      else Node.mk x (addLoop comp value l) r

/-- The method `Tree::add`, as a function of the root. -/
def add (comp : T → T → Bool) (root : Node T) (value : T) : Node T :=
  if root.isNull then Node.mk value Node.null Node.null
  else addLoop comp value root

/-- The method `Tree::maxWidth`. -/
def maxWidth (root : Node T) : Option Nat := countWidth root

/-- The tree after `add` of each value in order, starting from the empty tree. -/
def build (comp : T → T → Bool) (values : List T) : Node T :=
  values.foldl (add comp) Node.null

end Tree

/-! ## Treap -/

namespace Treap

variable {T : Type}

/-- The method `Treap::split`: the pair of the output pointers `(left, right)`. -/
def split (comp : T → T → Bool) (value : T) :
    Node (Prioritized T) → Node (Prioritized T) × Node (Prioritized T)
  | Node.null => (Node.null, Node.null)
  | Node.mk d l r =>
    if !comp value d.value then
      let s := split comp value r
      (Node.mk d l s.1, s.2)
    else
      let s := split comp value l
      (s.1, Node.mk d s.2 r)

/-- The method `Treap::addRec`: the pointer stored in `node` after the call. -/
def addRec (comp : T → T → Bool) (value : T) (priority : Nat) :
    Node (Prioritized T) → Node (Prioritized T)
  | Node.null => Node.mk ⟨value, priority⟩ Node.null Node.null
  | Node.mk d l r =>
    if d.priority < priority then
      let s := split comp value (Node.mk d l r)
      Node.mk ⟨value, priority⟩ s.1 s.2
    else if !comp value d.value then
      Node.mk d l (addRec comp value priority r)
    else
      Node.mk d (addRec comp value priority l) r

/-- The method `Treap::add`, as a function of the root. -/
def add (comp : T → T → Bool) (root : Node (Prioritized T)) (value : T) (priority : Nat) :
    Node (Prioritized T) :=
  addRec comp value priority root

/-- The method `Treap::maxWidth`. -/
def maxWidth (root : Node (Prioritized T)) : Option Nat := countWidth root

/-- The treap after `add` of each (value, priority) pair in order, starting from
the empty treap. -/
def build (comp : T → T → Bool) (items : List (T × Nat)) : Node (Prioritized T) :=
  items.foldl (fun root vp => add comp root vp.1 vp.2) Node.null

end Treap

/-! ## Specification vocabulary -/

section Predicates

variable {T D : Type}

/-- Strict weak ordering, the contract of a C++ comparator: irreflexive,
transitive, and with a transitive incomparability relation. -/
structure StrictWeakOrder (comp : T → T → Bool) : Prop where
  irrefl : ∀ a, comp a a = false
  trans : ∀ a b c, comp a b = true → comp b c = true → comp a c = true
  incomp_trans : ∀ a b c, comp a b = false → comp b a = false →
    comp b c = false → comp c b = false → comp a c = false ∧ comp c a = false

/-- BST order invariant in its strict form: below every node, each value of the
left subtree is comparator-less than the node value and no value of the right
subtree is.  `key` extracts the value from the data of a node. -/
def Node.Ordered (key : D → T) (comp : T → T → Bool) : Node D → Prop
  | Node.null => True
  | Node.mk d l r =>
    (∀ y ∈ l.toList, comp (key y) (key d) = true) ∧
    (∀ y ∈ r.toList, comp (key y) (key d) = false) ∧
    Node.Ordered key comp l ∧ Node.Ordered key comp r

/-- BST order invariant in its non-strict form: below every node, the node value
is comparator-less than no value of the left subtree, and no value of the right
subtree is comparator-less than the node value. -/
def Node.WeaklyOrdered (key : D → T) (comp : T → T → Bool) : Node D → Prop
  | Node.null => True
  | Node.mk d l r =>
    (∀ y ∈ l.toList, comp (key d) (key y) = false) ∧
    (∀ y ∈ r.toList, comp (key y) (key d) = false) ∧
    Node.WeaklyOrdered key comp l ∧ Node.WeaklyOrdered key comp r

/-- The node a pointer refers to, if any, has priority at most `bound`. -/
def Treap.rootPriorityLe (bound : Nat) : Node (Prioritized T) → Prop
  | Node.null => True
  | Node.mk d _ _ => d.priority ≤ bound

/-- Max-heap invariant on priorities: no child has a larger priority than its
parent. -/
def Treap.Heap : Node (Prioritized T) → Prop
  | Node.null => True
  | Node.mk d l r =>
    Treap.rootPriorityLe d.priority l ∧ Treap.rootPriorityLe d.priority r ∧
    Treap.Heap l ∧ Treap.Heap r

/-- The data of the node a pointer refers to. -/
def Node.rootData : Node D → Option D
  | Node.null => none
  | Node.mk d _ _ => some d

/-- A step from a node to one of its children. -/
inductive Dir where
  | left : Dir
  | right : Dir
  deriving DecidableEq

/-- The pointer reached from `t` by following a path of child links. -/
def Node.subtreeAt : Node D → List Dir → Option (Node D)
  | t, [] => some t
  | Node.null, _ :: _ => none
  | Node.mk _ l _, Dir.left :: p => l.subtreeAt p
  | Node.mk _ _ r, Dir.right :: p => r.subtreeAt p

/-- The data of the node at the end of a path, if there is a node there. -/
def Node.dataAt (t : Node D) (p : List Dir) : Option D :=
  match t.subtreeAt p with
  | some s => s.rootData
  | none => none

/-- The tree `t` with the link at the end of path `p` redirected to `s`; all
other links and all nodes off the path are untouched. -/
def Node.graft (s : Node D) : Node D → List Dir → Node D
  | _, [] => s
  | Node.null, _ :: _ => Node.null
  | Node.mk d l r, Dir.left :: p => Node.mk d (Node.graft s l p) r
  | Node.mk d l r, Dir.right :: p => Node.mk d l (Node.graft s r p)

/-- Some node storing `a` has a node storing `b` in its right subtree. -/
def Node.InRightSubtree (a b : D) : Node D → Prop
  | Node.null => False
  | Node.mk d l r =>
    (d = a ∧ b ∈ r.toList) ∨ Node.InRightSubtree a b l ∨ Node.InRightSubtree a b r

/-- Relabelling of the data of every node, links unchanged. -/
def Node.map {E : Type} (f : D → E) : Node D → Node E
  | Node.null => Node.null
  | Node.mk d l r => Node.mk (f d) (Node.map f l) (Node.map f r)

/-- Recursive formulation of the descent of `Tree::add`, used to reason about
the loop; `Tree.add_eq_insertRec` shows it computes the same tree. -/
def Tree.insertRec (comp : T → T → Bool) (value : T) : Node T → Node T
  | Node.null => Node.mk value Node.null Node.null
  | Node.mk x l r =>
    if !comp value x then Node.mk x l (Tree.insertRec comp value r)
    else Node.mk x (Tree.insertRec comp value l) r

/-- The quantity `treap.maxWidth() - tree.maxWidth()` computed by `test1`,
`test2` and `main`, after the loop that adds `values[i]` with `priors[i]` to the
treap and `values[i]` to the tree. -/
def widthDifference (values : List Int) (priors : List Nat) : Option Int :=
  match Treap.maxWidth (Treap.build DefaultComparator (values.zip priors)),
    Tree.maxWidth (Tree.build DefaultComparator values) with
  | some a, some b => some ((a : Int) - (b : Int))
  | _, _ => none

/-- The chain in which every node has only a right child, holding the given
values from the root downwards. -/
def Node.rightChain : List D → Node D
  | [] => Node.null
  | x :: xs => Node.mk x Node.null (Node.rightChain xs)

/-- No node reachable from the pointer has a left child. -/
def Node.NoLeftChild : Node D → Prop
  | Node.null => True
  | Node.mk _ l r => l.isNull = true ∧ Node.NoLeftChild l ∧ Node.NoLeftChild r

/-- The non-null children of a node in the order in which `countWidth` enqueues
them: right child first. -/
def Node.children : Node D → List (Node D)
  | Node.null => []
  | Node.mk _ l r => (if r.isNull then [] else [r]) ++ (if l.isNull then [] else [l])

/-- The node has at least one child. -/
def Node.hasChild : Node D → Bool
  | Node.null => false
  | Node.mk _ l r => !l.isNull || !r.isNull

/-- The queue holding the next level: the children of the nodes of a queue. -/
def nextLevel : List (Node D) → List (Node D)
  | [] => []
  | n :: q => n.children ++ nextLevel q

/-- Number of nodes at depth `d` below the nodes of a queue. -/
def forestWidth (q : List (Node D)) (d : Nat) : Nat :=
  (q.map (fun n => n.levelWidth d)).sum

/-- Number of nodes reachable from the nodes of a queue. -/
def forestSize (q : List (Node D)) : Nat :=
  (q.map Node.size).sum

/-- A non-null node pointer.  Two pointers are equal when they have the same
address; the address of a node is its path from the root.  The other fields are
what is read through the pointer. -/
structure NodeRef (D : Type) where
  addr : List Dir
  data : D
  left : Node D
  right : Node D

/-- The pointer stored in the link at address `a`: `none` is `nullptr`. -/
def Node.ref (a : List Dir) : Node D → Option (NodeRef D)
  | Node.null => none
  | Node.mk d l r => some ⟨a, d, l, r⟩

/-- The variables of `Tree::_postOrder`: `node`, the stack `history` (top
first), `lastNode` (a pointer that is only compared, so only its address is
kept) and the nodes the action was applied to so far, in order. -/
structure PostOrderState (D : Type) where
  node : Option (NodeRef D)
  history : List (NodeRef D)
  lastNode : Option (List Dir)
  visited : List (NodeRef D)

/-- The loop condition `!history.empty() || node` of `Tree::_postOrder`. -/
def Tree.postOrderCond (st : PostOrderState D) : Bool :=
  !st.history.isEmpty || st.node.isSome

/-- The loop body of `Tree::_postOrder`. -/
def Tree.postOrderBody (st : PostOrderState D) : PostOrderState D :=
  match st.node with
  | some n => ⟨Node.ref (n.addr ++ [Dir.left]) n.left, n :: st.history, st.lastNode, st.visited⟩
  | none =>
    match st.history with
    | [] => st
    | top :: rest =>
      if top.right.isNull = false ∧ st.lastNode ≠ some (top.addr ++ [Dir.right]) then
        ⟨Node.ref (top.addr ++ [Dir.right]) top.right, top :: rest, st.lastNode, st.visited⟩
      else
        ⟨none, rest, some top.addr, st.visited ++ [top]⟩

/-- The loop of `Tree::_postOrder` bounded by a number of iterations: the nodes
the action was applied to, in order, or `none` when the bound is exhausted. -/
def Tree.postOrderLoop : Nat → PostOrderState D → Option (List (NodeRef D))
  | 0, st => if Tree.postOrderCond st then none else some st.visited
  | fuel + 1, st =>
    if Tree.postOrderCond st then Tree.postOrderLoop fuel (Tree.postOrderBody st)
    else some st.visited

/-- The method `Tree::_postOrder` called on the root, with an action that
records the node it is applied to.  Every node is pushed once, popped once and
at most once left for its right child, so `3 * root.size` iterations are
allowed. -/
def Tree.postOrder (root : Node D) : Option (List (NodeRef D)) :=
  Tree.postOrderLoop (3 * root.size) ⟨Node.ref [] root, [], none, []⟩

/-- The recursive method `Treap::_postOrder` called on the pointer at address
`a`, with an action that records the node it is applied to: left subtree, right
subtree, then the node. -/
def Treap.postOrder (a : List Dir) : Node D → List (NodeRef D)
  | Node.null => []
  | Node.mk d l r =>
    Treap.postOrder (a ++ [Dir.left]) l ++ Treap.postOrder (a ++ [Dir.right]) r ++ [⟨a, d, l, r⟩]

/-- Number of iterations of the loop of `Tree::_postOrder` spent on a subtree. -/
def Tree.postOrderSteps : Node D → Nat
  | Node.null => 0
  | Node.mk _ l r =>
    Tree.postOrderSteps l + (if r.isNull then 0 else 1) + Tree.postOrderSteps r + 2

end Predicates

/-! ## Basic facts -/

section Basic

variable {T D : Type}

theorem Tree.addLoop_eq_insertRec (comp : T → T → Bool) (value : T) (t : Node T)
    (ht : t.isNull = false) :
    Tree.addLoop comp value t = Tree.insertRec comp value t := by
  induction t with
  | null => simp [Node.isNull] at ht
  | mk x l r ihl ihr =>
    cases hc : comp value x
    · cases r with
      | null => simp [Tree.addLoop, Tree.insertRec, hc, Node.isNull]
      | mk y rl rr =>
        have h := ihr (by simp [Node.isNull])
        rw [Tree.addLoop, h]
        simp [hc, Node.isNull, Tree.insertRec]
    · cases l with
      | null => simp [Tree.addLoop, Tree.insertRec, hc, Node.isNull]
      | mk y ll lr =>
        have h := ihl (by simp [Node.isNull])
        rw [Tree.addLoop, h]
        simp [hc, Node.isNull, Tree.insertRec]

theorem Tree.add_eq_insertRec (comp : T → T → Bool) (root : Node T) (value : T) :
    Tree.add comp root value = Tree.insertRec comp value root := by
  cases root with
  | null => rfl
  | mk x l r =>
    have h := Tree.addLoop_eq_insertRec comp value (Node.mk x l r) (by simp [Node.isNull])
    simpa [Tree.add, Node.isNull] using h

theorem Tree.build_snoc (comp : T → T → Bool) (values : List T) (v : T) :
    Tree.build comp (values ++ [v]) = Tree.insertRec comp v (Tree.build comp values) := by
  simp [Tree.build, List.foldl_append, Tree.add_eq_insertRec]

theorem Tree.mem_insertRec (comp : T → T → Bool) (v y : T) (t : Node T) :
    y ∈ (Tree.insertRec comp v t).toList ↔ y = v ∨ y ∈ t.toList := by
  induction t with
  | null => simp [Tree.insertRec, Node.toList]
  | mk x l r ihl ihr =>
    cases hc : comp v x <;> simp [Tree.insertRec, Node.toList, hc, ihl, ihr] <;> tauto

theorem Tree.insertRec_ordered (comp : T → T → Bool) (v : T) (t : Node T)
    (h : Node.Ordered id comp t) : Node.Ordered id comp (Tree.insertRec comp v t) := by
  induction t with
  | null => simp [Tree.insertRec, Node.Ordered, Node.toList]
  | mk x l r ihl ihr =>
    obtain ⟨hl, hr, ol, or_⟩ := h
    cases hc : comp v x
    · simp only [Tree.insertRec, hc, Bool.not_false, if_true]
      refine ⟨hl, ?_, ol, ihr or_⟩
      intro y hy
      rcases (Tree.mem_insertRec comp v y r).1 hy with rfl | hy
      · exact hc
      · exact hr y hy
    · simp only [Tree.insertRec, hc, Bool.not_true, if_false]
      refine ⟨?_, hr, ihl ol, or_⟩
      intro y hy
      rcases (Tree.mem_insertRec comp v y l).1 hy with rfl | hy
      · exact hc
      · exact hl y hy

theorem Tree.build_ordered_all (comp : T → T → Bool) (values : List T) :
    Node.Ordered id comp (Tree.build comp values) := by
  induction values using List.reverseRecOn with
  | nil => simp [Tree.build, Node.Ordered]
  | append_singleton vs v ih =>
    rw [Tree.build_snoc]
    exact Tree.insertRec_ordered comp v _ ih

theorem Tree.mem_build (comp : T → T → Bool) (values : List T) (y : T) :
    y ∈ (Tree.build comp values).toList ↔ y ∈ values := by
  induction values using List.reverseRecOn with
  | nil => simp [Tree.build, Node.toList]
  | append_singleton vs v ih =>
    rw [Tree.build_snoc, Tree.mem_insertRec, ih]
    simp [or_comm]

/-! ### Consequences of a strict weak ordering -/

theorem StrictWeakOrder.asymm {comp : T → T → Bool} (h : StrictWeakOrder comp) (a b : T)
    (hab : comp a b = true) : comp b a = false := by
  cases hba : comp b a
  · rfl
  · have := h.trans a b a hab hba
    rw [h.irrefl a] at this
    cases this

theorem StrictWeakOrder.neg_trans {comp : T → T → Bool} (h : StrictWeakOrder comp) (a b c : T)
    (hab : comp a b = false) (hbc : comp b c = false) : comp a c = false := by
  cases hac : comp a c
  · rfl
  · cases hba : comp b a
    · cases hcb : comp c b
      · have := (h.incomp_trans a b c hab hba hbc hcb).1
        rw [hac] at this
        cases this
      · have := h.trans a c b hac hcb
        rw [hab] at this
        cases this
    · have := h.trans b a c hba hac
      rw [hbc] at this
      cases this

theorem StrictWeakOrder.lt_of_lt_of_not_lt {comp : T → T → Bool} (h : StrictWeakOrder comp)
    (a b c : T) (hab : comp a b = true) (hcb : comp c b = false) : comp a c = true := by
  cases hac : comp a c
  · have := h.neg_trans a c b hac hcb
    rw [hab] at this
    cases this
  · rfl

theorem StrictWeakOrder.onKey {comp : T → T → Bool} (h : StrictWeakOrder comp) (key : D → T) :
    StrictWeakOrder (fun a b : D => comp (key a) (key b)) :=
  ⟨fun a => h.irrefl (key a), fun a b c => h.trans (key a) (key b) (key c),
    fun a b c => h.incomp_trans (key a) (key b) (key c)⟩

theorem DefaultComparator_strictWeak : StrictWeakOrder DefaultComparator := by
  refine ⟨?_, ?_, ?_⟩
  · intro a; simp [DefaultComparator]
  · intro a b c; simp only [DefaultComparator, decide_eq_true_eq]; omega
  · intro a b c; simp only [DefaultComparator, decide_eq_false_iff_not]; omega

/-! ### Treap: split and addRec -/

theorem Treap.split_toList (comp : T → T → Bool) (v : T) (t : Node (Prioritized T)) :
    (Treap.split comp v t).1.toList ++ (Treap.split comp v t).2.toList = t.toList := by
  induction t with
  | null => simp [Treap.split, Node.toList]
  | mk d l r ihl ihr =>
    cases hc : comp v d.value
    · simp [Treap.split, hc, Node.toList, ihr]
    · simp [Treap.split, hc, Node.toList, ← ihl]

theorem Treap.mem_split (comp : T → T → Bool) (v : T) (t : Node (Prioritized T))
    (y : Prioritized T) :
    y ∈ t.toList ↔ y ∈ (Treap.split comp v t).1.toList ∨ y ∈ (Treap.split comp v t).2.toList := by
  rw [← Treap.split_toList comp v t, List.mem_append]

theorem Treap.mem_addRec (comp : T → T → Bool) (v : T) (p : Nat) (t : Node (Prioritized T))
    (y : Prioritized T) :
    y ∈ (Treap.addRec comp v p t).toList ↔ y = ⟨v, p⟩ ∨ y ∈ t.toList := by
  induction t with
  | null => simp [Treap.addRec, Node.toList]
  | mk d l r ihl ihr =>
    by_cases hp : d.priority < p
    · have hs := Treap.split_toList comp v (Node.mk d l r)
      simp only [Treap.addRec, hp, if_true]
      generalize Treap.split comp v (Node.mk d l r) = s at hs ⊢
      rw [← hs]
      simp only [Node.toList, List.mem_append, List.mem_cons]
      tauto
    · cases hc : comp v d.value <;>
        simp [Treap.addRec, hp, hc, Node.toList, ihl, ihr] <;> tauto

theorem Treap.rootPriorityLe_of_all (b : Nat) (t : Node (Prioritized T))
    (h : ∀ y ∈ t.toList, y.priority ≤ b) : Treap.rootPriorityLe b t := by
  cases t with
  | null => trivial
  | mk d l r => exact h d (by simp [Node.toList])

theorem Treap.all_le_of_heap (b : Nat) (t : Node (Prioritized T)) (hh : Treap.Heap t)
    (hb : Treap.rootPriorityLe b t) : ∀ y ∈ t.toList, y.priority ≤ b := by
  induction t generalizing b with
  | null => simp [Node.toList]
  | mk d l r ihl ihr =>
    obtain ⟨hl, hr, hhl, hhr⟩ := hh
    have hd : d.priority ≤ b := hb
    intro y hy
    simp only [Node.toList, List.mem_append, List.mem_cons] at hy
    rcases hy with hy | rfl | hy
    · exact le_trans (ihl _ hhl hl y hy) hd
    · exact hd
    · exact le_trans (ihr _ hhr hr y hy) hd

theorem Treap.split_heap (comp : T → T → Bool) (v : T) (t : Node (Prioritized T))
    (hh : Treap.Heap t) :
    Treap.Heap (Treap.split comp v t).1 ∧ Treap.Heap (Treap.split comp v t).2 := by
  induction t with
  | null => simp [Treap.split, Treap.Heap]
  | mk d l r ihl ihr =>
    obtain ⟨hl, hr, hhl, hhr⟩ := hh
    cases hc : comp v d.value
    · simp only [Treap.split, hc, Bool.not_false, if_true]
      refine ⟨⟨hl, ?_, hhl, (ihr hhr).1⟩, (ihr hhr).2⟩
      apply Treap.rootPriorityLe_of_all
      intro y hy
      exact Treap.all_le_of_heap _ r hhr hr y ((Treap.mem_split comp v r y).2 (Or.inl hy))
    · simp only [Treap.split, hc, Bool.not_true, if_false]
      refine ⟨(ihl hhl).1, ⟨?_, hr, (ihl hhl).2, hhr⟩⟩
      apply Treap.rootPriorityLe_of_all
      intro y hy
      exact Treap.all_le_of_heap _ l hhl hl y ((Treap.mem_split comp v l y).2 (Or.inr hy))

theorem Treap.addRec_heap (comp : T → T → Bool) (v : T) (p : Nat) (t : Node (Prioritized T))
    (hh : Treap.Heap t) :
    Treap.Heap (Treap.addRec comp v p t) ∧
      ∀ b, p ≤ b → Treap.rootPriorityLe b t → Treap.rootPriorityLe b (Treap.addRec comp v p t) := by
  induction t with
  | null => simp [Treap.addRec, Treap.Heap, Treap.rootPriorityLe]
  | mk d l r ihl ihr =>
    by_cases hp : d.priority < p
    · have hs := Treap.split_heap comp v (Node.mk d l r) hh
      have hall := Treap.all_le_of_heap d.priority (Node.mk d l r) hh (le_refl _)
      simp only [Treap.addRec, hp, if_true]
      refine ⟨⟨?_, ?_, hs.1, hs.2⟩, fun b hb _ => hb⟩
      · apply Treap.rootPriorityLe_of_all
        intro y hy
        exact le_trans (hall y ((Treap.mem_split comp v _ y).2 (Or.inl hy))) (le_of_lt hp)
      · apply Treap.rootPriorityLe_of_all
        intro y hy
        exact le_trans (hall y ((Treap.mem_split comp v _ y).2 (Or.inr hy))) (le_of_lt hp)
    · obtain ⟨hl, hr, hhl, hhr⟩ := hh
      have hpd : p ≤ d.priority := Nat.le_of_not_lt hp
      cases hc : comp v d.value
      · simp only [Treap.addRec, hp, hc, if_false, Bool.not_false, if_true]
        exact ⟨⟨hl, (ihr hhr).2 _ hpd hr, hhl, (ihr hhr).1⟩, fun b _ hb => hb⟩
      · simp only [Treap.addRec, hp, hc, if_false, Bool.not_true]
        exact ⟨⟨(ihl hhl).2 _ hpd hl, hr, (ihl hhl).1, hhr⟩, fun b _ hb => hb⟩

theorem Treap.build_snoc_addRec (comp : T → T → Bool) (items : List (T × Nat)) (vp : T × Nat) :
    Treap.build comp (items ++ [vp]) = Treap.addRec comp vp.1 vp.2 (Treap.build comp items) := by
  simp [Treap.build, List.foldl_append, Treap.add]

theorem Treap.build_heap_all (comp : T → T → Bool) (items : List (T × Nat)) :
    Treap.Heap (Treap.build comp items) := by
  induction items using List.reverseRecOn with
  | nil => simp [Treap.build, Treap.Heap]
  | append_singleton xs x ih =>
    rw [Treap.build_snoc_addRec]
    exact (Treap.addRec_heap comp x.1 x.2 _ ih).1

theorem Treap.split_bounds (comp : T → T → Bool) (hc : StrictWeakOrder comp) (v : T)
    (t : Node (Prioritized T)) (ht : Node.WeaklyOrdered Prioritized.value comp t) :
    (∀ y ∈ (Treap.split comp v t).1.toList, comp v y.value = false) ∧
      (∀ y ∈ (Treap.split comp v t).2.toList, comp v y.value = true) := by
  induction t with
  | null => simp [Treap.split, Node.toList]
  | mk d l r ihl ihr =>
    obtain ⟨hl, hr, wl, wr⟩ := ht
    cases hcv : comp v d.value
    · simp only [Treap.split, hcv, Bool.not_false, if_true]
      refine ⟨?_, (ihr wr).2⟩
      intro y hy
      simp only [Node.toList, List.mem_append, List.mem_cons] at hy
      rcases hy with hy | rfl | hy
      · exact hc.neg_trans v d.value y.value hcv (hl y hy)
      · exact hcv
      · exact (ihr wr).1 y hy
    · simp only [Treap.split, hcv, Bool.not_true, if_false]
      refine ⟨(ihl wl).1, ?_⟩
      intro y hy
      simp only [Node.toList, List.mem_append, List.mem_cons] at hy
      rcases hy with hy | rfl | hy
      · exact (ihl wl).2 y hy
      · exact hcv
      · exact hc.lt_of_lt_of_not_lt v d.value y.value hcv (hr y hy)

theorem Treap.split_weaklyOrdered (comp : T → T → Bool) (v : T)
    (t : Node (Prioritized T)) (ht : Node.WeaklyOrdered Prioritized.value comp t) :
    Node.WeaklyOrdered Prioritized.value comp (Treap.split comp v t).1 ∧
      Node.WeaklyOrdered Prioritized.value comp (Treap.split comp v t).2 := by
  induction t with
  | null => simp [Treap.split, Node.WeaklyOrdered]
  | mk d l r ihl ihr =>
    obtain ⟨hl, hr, wl, wr⟩ := ht
    cases hcv : comp v d.value
    · simp only [Treap.split, hcv, Bool.not_false, if_true]
      exact ⟨⟨hl, fun y hy => hr y ((Treap.mem_split comp v r y).2 (Or.inl hy)), wl, (ihr wr).1⟩,
        (ihr wr).2⟩
    · simp only [Treap.split, hcv, Bool.not_true, if_false]
      exact ⟨(ihl wl).1,
        ⟨fun y hy => hl y ((Treap.mem_split comp v l y).2 (Or.inr hy)), hr, (ihl wl).2, wr⟩⟩

theorem Treap.addRec_weaklyOrdered (comp : T → T → Bool) (hc : StrictWeakOrder comp) (v : T)
    (p : Nat) (t : Node (Prioritized T)) (ht : Node.WeaklyOrdered Prioritized.value comp t) :
    Node.WeaklyOrdered Prioritized.value comp (Treap.addRec comp v p t) := by
  induction t with
  | null => simp [Treap.addRec, Node.WeaklyOrdered, Node.toList]
  | mk d l r ihl ihr =>
    by_cases hp : d.priority < p
    · have hb := Treap.split_bounds comp hc v (Node.mk d l r) ht
      have hw := Treap.split_weaklyOrdered comp v (Node.mk d l r) ht
      simp only [Treap.addRec, hp, if_true]
      exact ⟨hb.1, fun y hy => hc.asymm v y.value (hb.2 y hy), hw.1, hw.2⟩
    · obtain ⟨hl, hr, wl, wr⟩ := ht
      cases hcv : comp v d.value
      · simp only [Treap.addRec, hp, hcv, if_false, Bool.not_false, if_true]
        refine ⟨hl, ?_, wl, ihr wr⟩
        intro y hy
        rcases (Treap.mem_addRec comp v p r y).1 hy with rfl | hy
        · exact hcv
        · exact hr y hy
      · simp only [Treap.addRec, hp, hcv, if_false, Bool.not_true]
        refine ⟨?_, hr, ihl wl, wr⟩
        intro y hy
        rcases (Treap.mem_addRec comp v p l y).1 hy with rfl | hy
        · exact hc.asymm v d.value hcv
        · exact hl y hy

theorem Treap.build_weaklyOrdered_all (comp : T → T → Bool) (hc : StrictWeakOrder comp)
    (items : List (T × Nat)) :
    Node.WeaklyOrdered Prioritized.value comp (Treap.build comp items) := by
  induction items using List.reverseRecOn with
  | nil => simp [Treap.build, Node.WeaklyOrdered]
  | append_singleton xs x ih =>
    rw [Treap.build_snoc_addRec]
    exact Treap.addRec_weaklyOrdered comp hc x.1 x.2 _ ih

/-! ### Tree: paths and grafting -/

theorem Node.size_graft_leaf (d : D) (t : Node D) (p : List Dir)
    (hp : t.subtreeAt p = some Node.null) :
    (Node.graft (Node.mk d Node.null Node.null) t p).size = t.size + 1 := by
  induction t generalizing p with
  | null =>
    cases p with
    | nil => simp [Node.graft, Node.size]
    | cons a q => simp [Node.subtreeAt] at hp
  | mk x l r ihl ihr =>
    cases p with
    | nil => simp [Node.subtreeAt] at hp
    | cons a q =>
      cases a with
      | left =>
        have := ihl q (by simpa [Node.subtreeAt] using hp)
        simp [Node.graft, Node.size, this]; omega
      | right =>
        have := ihr q (by simpa [Node.subtreeAt] using hp)
        simp [Node.graft, Node.size, this]; omega

theorem Node.dataAt_graft_leaf (s : Node D) (t : Node D) (p : List Dir)
    (hp : t.subtreeAt p = some Node.null) (q : List Dir) (x : D) (hq : t.dataAt q = some x) :
    (Node.graft s t p).dataAt q = some x := by
  induction t generalizing p q with
  | null =>
    cases q with
    | nil => simp [Node.dataAt, Node.subtreeAt, Node.rootData] at hq
    | cons a q => simp [Node.dataAt, Node.subtreeAt] at hq
  | mk y l r ihl ihr =>
    cases p with
    | nil => simp [Node.subtreeAt] at hp
    | cons a p =>
      cases a with
      | left =>
        cases q with
        | nil => simpa [Node.dataAt, Node.subtreeAt, Node.rootData, Node.graft] using hq
        | cons b q =>
          cases b with
          | left =>
            have := ihl p (by simpa [Node.subtreeAt] using hp) q
              (by simpa [Node.dataAt, Node.subtreeAt] using hq)
            simpa [Node.dataAt, Node.subtreeAt, Node.graft] using this
          | right => simpa [Node.dataAt, Node.subtreeAt, Node.graft] using hq
      | right =>
        cases q with
        | nil => simpa [Node.dataAt, Node.subtreeAt, Node.rootData, Node.graft] using hq
        | cons b q =>
          cases b with
          | left => simpa [Node.dataAt, Node.subtreeAt, Node.graft] using hq
          | right =>
            have := ihr p (by simpa [Node.subtreeAt] using hp) q
              (by simpa [Node.dataAt, Node.subtreeAt] using hq)
            simpa [Node.dataAt, Node.subtreeAt, Node.graft] using this

theorem Tree.insertRec_eq_graft (comp : T → T → Bool) (v : T) (t : Node T) :
    ∃ p, t.subtreeAt p = some Node.null ∧
      Tree.insertRec comp v t = Node.graft (Node.mk v Node.null Node.null) t p := by
  induction t with
  | null => exact ⟨[], by simp [Node.subtreeAt], by simp [Tree.insertRec, Node.graft]⟩
  | mk x l r ihl ihr =>
    cases hc : comp v x
    · obtain ⟨p, hp, he⟩ := ihr
      exact ⟨Dir.right :: p, by simpa [Node.subtreeAt] using hp,
        by simp [Tree.insertRec, hc, Node.graft, he]⟩
    · obtain ⟨p, hp, he⟩ := ihl
      exact ⟨Dir.left :: p, by simpa [Node.subtreeAt] using hp,
        by simp [Tree.insertRec, hc, Node.graft, he]⟩

theorem Node.graft_leaf_injective (d : D) (t : Node D) (p q : List Dir)
    (hp : t.subtreeAt p = some Node.null) (hq : t.subtreeAt q = some Node.null)
    (h : Node.graft (Node.mk d Node.null Node.null) t p =
      Node.graft (Node.mk d Node.null Node.null) t q) : p = q := by
  induction t generalizing p q with
  | null =>
    cases p with
    | nil =>
      cases q with
      | nil => rfl
      | cons b q => simp [Node.subtreeAt] at hq
    | cons a p => simp [Node.subtreeAt] at hp
  | mk x l r ihl ihr =>
    cases p with
    | nil => simp [Node.subtreeAt] at hp
    | cons a p =>
      cases q with
      | nil => simp [Node.subtreeAt] at hq
      | cons b q =>
        cases a <;> cases b <;> simp only [Node.subtreeAt] at hp hq <;>
          simp only [Node.graft, Node.mk.injEq, true_and, and_true] at h
        · rw [ihl p q hp hq h]
        · have h1 := congrArg Node.size h.1
          rw [Node.size_graft_leaf d l p hp] at h1
          omega
        · have h1 := congrArg Node.size h.1
          rw [Node.size_graft_leaf d l q hq] at h1
          omega
        · rw [ihr p q hp hq h]

/-! ### Tree: duplicates -/

theorem Node.inRightSubtree_insertRec_mono (comp : T → T → Bool) (v a b : T) (t : Node T)
    (h : Node.InRightSubtree a b t) : Node.InRightSubtree a b (Tree.insertRec comp v t) := by
  induction t with
  | null => exact absurd h (by simp [Node.InRightSubtree])
  | mk x l r ihl ihr =>
    cases hc : comp v x
    · simp only [Tree.insertRec, hc, Bool.not_false, if_true]
      rcases h with ⟨hx, hb⟩ | h | h
      · exact Or.inl ⟨hx, (Tree.mem_insertRec comp v b r).2 (Or.inr hb)⟩
      · exact Or.inr (Or.inl h)
      · exact Or.inr (Or.inr (ihr h))
    · simp only [Tree.insertRec, hc, Bool.not_true, if_false]
      rcases h with ⟨hx, hb⟩ | h | h
      · exact Or.inl ⟨hx, hb⟩
      · exact Or.inr (Or.inl (ihl h))
      · exact Or.inr (Or.inr h)

theorem Node.inRightSubtree_insertRec_equiv (comp : T → T → Bool) (hc : StrictWeakOrder comp)
    (a b : T) (t : Node T) (ht : Node.Ordered id comp t) (ha : a ∈ t.toList)
    (hab : comp a b = false) (hba : comp b a = false) :
    Node.InRightSubtree a b (Tree.insertRec comp b t) := by
  induction t with
  | null => simp [Node.toList] at ha
  | mk x l r ihl ihr =>
    obtain ⟨hl, hr, ol, or_⟩ := ht
    simp only [Node.toList, List.mem_append, List.mem_cons] at ha
    rcases ha with ha | rfl | ha
    · have hbx : comp b x = true := by
        cases hbx : comp b x
        · have h1 := hc.neg_trans a b x hab hbx
          have h2 : comp a x = true := hl a ha
          rw [h1] at h2
          cases h2
        · rfl
      simp only [Tree.insertRec, hbx, Bool.not_true, if_false]
      exact Or.inr (Or.inl (ihl ol ha))
    · simp only [Tree.insertRec, hba, Bool.not_false, if_true]
      exact Or.inl ⟨rfl, (Tree.mem_insertRec comp b b r).2 (Or.inl rfl)⟩
    · have hbx : comp b x = false := hc.neg_trans b a x hba (hr a ha)
      simp only [Tree.insertRec, hbx, Bool.not_false, if_true]
      exact Or.inr (Or.inr (ihr or_ ha))

theorem Tree.build_inRightSubtree (comp : T → T → Bool) (hc : StrictWeakOrder comp)
    (xs : List T) (i j : Nat) (a b : T) (hij : i < j) (hi : xs[i]? = some a)
    (hj : xs[j]? = some b) (hab : comp a b = false) (hba : comp b a = false) :
    Node.InRightSubtree a b (Tree.build comp xs) := by
  induction xs using List.reverseRecOn with
  | nil => simp at hj
  | append_singleton ys z ih =>
    rw [Tree.build_snoc]
    have hjlen : j < (ys ++ [z]).length := (List.getElem?_eq_some.1 hj).1
    simp only [List.length_append, List.length_singleton] at hjlen
    have hi2 : ys[i]? = some a := by
      rw [List.getElem?_append_left (by omega)] at hi
      exact hi
    by_cases hjy : j < ys.length
    · rw [List.getElem?_append_left hjy] at hj
      exact Node.inRightSubtree_insertRec_mono comp z a b _ (ih hi2 hj)
    · have hjeq : j = ys.length := by omega
      subst hjeq
      rw [List.getElem?_append_right (le_refl _)] at hj
      simp only [Nat.sub_self, List.getElem?_cons_zero, Option.some.injEq] at hj
      subst hj
      have ha : a ∈ (Tree.build comp ys).toList :=
        (Tree.mem_build comp ys a).2 (List.getElem?_mem hi2)
      exact Node.inRightSubtree_insertRec_equiv comp hc a z _
        (Tree.build_ordered_all comp ys) ha hab hba

theorem Tree.map_insertRec {E : Type} (comp : E → E → Bool) (f : D → E) (v : D) (t : Node D) :
    Node.map f (Tree.insertRec (fun a b => comp (f a) (f b)) v t) =
      Tree.insertRec comp (f v) (Node.map f t) := by
  induction t with
  | null => simp [Tree.insertRec, Node.map]
  | mk x l r ihl ihr =>
    cases hc : comp (f v) (f x) <;> simp [Tree.insertRec, Node.map, hc, ihl, ihr]

theorem Tree.map_build {E : Type} (comp : E → E → Bool) (f : D → E) (xs : List D) :
    Node.map f (Tree.build (fun a b => comp (f a) (f b)) xs) = Tree.build comp (xs.map f) := by
  induction xs using List.reverseRecOn with
  | nil => simp [Tree.build, Node.map]
  | append_singleton ys z ih =>
    rw [List.map_append, List.map_singleton, Tree.build_snoc, Tree.build_snoc,
      Tree.map_insertRec, ih]

/-! ### Tree: increasing input -/

theorem Tree.insertRec_rightChain (comp : T → T → Bool) (v : T) (xs : List T)
    (h : ∀ x ∈ xs, comp v x = false) :
    Tree.insertRec comp v (Node.rightChain xs) = Node.rightChain (xs ++ [v]) := by
  induction xs with
  | nil => simp [Node.rightChain, Tree.insertRec]
  | cons x xs ih =>
    have hx : comp v x = false := h x (by simp)
    simp [Node.rightChain, Tree.insertRec, hx, ih (fun y hy => h y (by simp [hy]))]

theorem Tree.build_increasing (values : List Int) (h : values.Pairwise (· < ·)) :
    Tree.build DefaultComparator values = Node.rightChain values := by
  induction values using List.reverseRecOn with
  | nil => simp [Tree.build, Node.rightChain]
  | append_singleton ys z ih =>
    rw [List.pairwise_append] at h
    rw [Tree.build_snoc, ih h.1]
    apply Tree.insertRec_rightChain
    intro x hx
    have := h.2.2 x hx z (by simp)
    simp only [DefaultComparator, decide_eq_false_iff_not]
    omega

theorem Node.rightChain_noLeftChild (xs : List D) : Node.NoLeftChild (Node.rightChain xs) := by
  induction xs with
  | nil => simp [Node.rightChain, Node.NoLeftChild]
  | cons x xs ih => simp [Node.rightChain, Node.NoLeftChild, Node.isNull, ih]

theorem Node.rightChain_height (xs : List D) : (Node.rightChain xs).height = xs.length := by
  induction xs with
  | nil => simp [Node.rightChain, Node.height]
  | cons x xs ih => simp [Node.rightChain, Node.height, ih]

theorem Node.levelWidth_null (d : Nat) : (Node.null : Node D).levelWidth d = 0 := by
  cases d <;> rfl

theorem Node.rightChain_levelWidth (xs : List D) (d : Nat) (hd : d < xs.length) :
    (Node.rightChain xs).levelWidth d = 1 := by
  induction xs generalizing d with
  | nil => simp at hd
  | cons x xs ih =>
    cases d with
    | zero => simp [Node.rightChain, Node.levelWidth]
    | succ d =>
      simp only [List.length_cons, Nat.add_lt_add_iff_right] at hd
      simp [Node.rightChain, Node.levelWidth, Node.levelWidth_null, ih d hd]

/-! ### Treap: split on ordered subtrees -/

theorem Node.Ordered.weaklyOrdered {comp : T → T → Bool} (hc : StrictWeakOrder comp)
    (key : D → T) (t : Node D) (h : Node.Ordered key comp t) :
    Node.WeaklyOrdered key comp t := by
  induction t with
  | null => trivial
  | mk d l r ihl ihr =>
    obtain ⟨hl, hr, ol, or_⟩ := h
    exact ⟨fun y hy => hc.asymm _ _ (hl y hy), hr, ihl ol, ihr or_⟩

theorem Treap.split_ordered (comp : T → T → Bool) (v : T)
    (t : Node (Prioritized T)) (ht : Node.Ordered Prioritized.value comp t) :
    Node.Ordered Prioritized.value comp (Treap.split comp v t).1 ∧
      Node.Ordered Prioritized.value comp (Treap.split comp v t).2 := by
  induction t with
  | null => simp [Treap.split, Node.Ordered]
  | mk d l r ihl ihr =>
    obtain ⟨hl, hr, wl, wr⟩ := ht
    cases hcv : comp v d.value
    · simp only [Treap.split, hcv, Bool.not_false, if_true]
      exact ⟨⟨hl, fun y hy => hr y ((Treap.mem_split comp v r y).2 (Or.inl hy)), wl, (ihr wr).1⟩,
        (ihr wr).2⟩
    · simp only [Treap.split, hcv, Bool.not_true, if_false]
      exact ⟨(ihl wl).1,
        ⟨fun y hy => hl y ((Treap.mem_split comp v l y).2 (Or.inr hy)), hr, (ihl wl).2, wr⟩⟩

theorem Treap.split_lt (comp : T → T → Bool) (hc : StrictWeakOrder comp) (v : T)
    (t : Node (Prioritized T)) (ht : Node.WeaklyOrdered Prioritized.value comp t) :
    ∀ x ∈ (Treap.split comp v t).1.toList, ∀ y ∈ (Treap.split comp v t).2.toList,
      comp x.value y.value = true := by
  intro x hx y hy
  have hb := Treap.split_bounds comp hc v t ht
  have h1 := hb.1 x hx
  have h2 := hb.2 y hy
  cases hxy : comp x.value y.value
  · have := hc.neg_trans v x.value y.value h1 hxy
    rw [h2] at this
    cases this
  · rfl

theorem Treap.split_filter (comp : T → T → Bool) (hc : StrictWeakOrder comp) (v : T)
    (t : Node (Prioritized T)) (ht : Node.WeaklyOrdered Prioritized.value comp t) :
    (Treap.split comp v t).1.toList = t.toList.filter (fun x => !comp v x.value) ∧
      (Treap.split comp v t).2.toList = t.toList.filter (fun x => comp v x.value) := by
  have hb := Treap.split_bounds comp hc v t ht
  have hs := Treap.split_toList comp v t
  generalize Treap.split comp v t = s at hb hs
  rw [← hs, List.filter_append, List.filter_append]
  have h1 : s.1.toList.filter (fun x => !comp v x.value) = s.1.toList :=
    List.filter_eq_self.2 (fun x hx => by simp [hb.1 x hx])
  have h2 : s.2.toList.filter (fun x => !comp v x.value) = [] :=
    List.filter_eq_nil_iff.2 (fun x hx => by simp [hb.2 x hx])
  have h3 : s.1.toList.filter (fun x => comp v x.value) = [] :=
    List.filter_eq_nil_iff.2 (fun x hx => by simp [hb.1 x hx])
  have h4 : s.2.toList.filter (fun x => comp v x.value) = s.2.toList :=
    List.filter_eq_self.2 (fun x hx => by simp [hb.2 x hx])
  rw [h1, h2, h3, h4]
  simp

/-! ### Treap: in-order sequence -/

theorem Treap.addRec_toList_perm (comp : T → T → Bool) (v : T) (p : Nat)
    (t : Node (Prioritized T)) :
    (Treap.addRec comp v p t).toList.Perm (⟨v, p⟩ :: t.toList) := by
  induction t with
  | null => simp [Treap.addRec, Node.toList]
  | mk d l r ihl ihr =>
    by_cases hp : d.priority < p
    · have hs := Treap.split_toList comp v (Node.mk d l r)
      simp only [Treap.addRec, hp, if_true]
      generalize Treap.split comp v (Node.mk d l r) = s at hs ⊢
      rw [← hs]
      simp only [Node.toList]
      exact List.perm_middle
    · cases hc : comp v d.value
      · simp only [Treap.addRec, hp, hc, if_false, Bool.not_false, if_true, Node.toList]
        have h1 : (l.toList ++ d :: (Treap.addRec comp v p r).toList).Perm
            (l.toList ++ d :: (⟨v, p⟩ :: r.toList)) :=
          List.Perm.append_left _ (List.Perm.cons _ ihr)
        refine h1.trans ?_
        have h2 : (l.toList ++ d :: (⟨v, p⟩ :: r.toList)) =
            (l.toList ++ [d]) ++ (⟨v, p⟩ :: r.toList) := by simp
        rw [h2]
        refine List.perm_middle.trans ?_
        simp
      · simp only [Treap.addRec, hp, hc, if_false, Bool.not_true, Node.toList]
        have h1 : ((Treap.addRec comp v p l).toList ++ d :: r.toList).Perm
            ((⟨v, p⟩ :: l.toList) ++ d :: r.toList) :=
          List.Perm.append_right _ ihl
        simpa using h1

theorem Treap.build_toList_perm (comp : T → T → Bool) (items : List (T × Nat)) :
    (Treap.build comp items).toList.Perm (items.map (fun vp => ⟨vp.1, vp.2⟩)) := by
  induction items using List.reverseRecOn with
  | nil => simp [Treap.build, Node.toList]
  | append_singleton xs x ih =>
    rw [Treap.build_snoc_addRec]
    refine (Treap.addRec_toList_perm comp x.1 x.2 _).trans ?_
    rw [List.map_append, List.map_singleton]
    refine (List.Perm.cons _ ih).trans ?_
    exact (List.perm_append_singleton _ _).symm

theorem Treap.weaklyOrdered_sorted (t : Node (Prioritized Int))
    (h : Node.WeaklyOrdered Prioritized.value DefaultComparator t) :
    (t.toList.map Prioritized.value).Pairwise (· ≤ ·) := by
  induction t with
  | null => simp [Node.toList]
  | mk d l r ihl ihr =>
    obtain ⟨hl, hr, wl, wr⟩ := h
    simp only [Node.toList, List.map_append, List.map_cons, List.pairwise_append,
      List.pairwise_cons, List.mem_map, List.mem_cons, forall_exists_index, and_imp,
      forall_apply_eq_imp_iff₂]
    refine ⟨ihl wl, ⟨?_, ihr wr⟩, ?_⟩
    · intro y hy
      have := hr y hy
      simp only [DefaultComparator, decide_eq_false_iff_not] at this
      omega
    · intro x hx b hb
      have h1 := hl x hx
      simp only [DefaultComparator, decide_eq_false_iff_not] at h1
      rcases hb with rfl | ⟨y, hy, rfl⟩
      · omega
      · have h2 := hr y hy
        simp only [DefaultComparator, decide_eq_false_iff_not] at h2
        omega

/-! ### countWidth: the level loop -/

theorem pushChild_pair (d : D) (l r : Node D) (nodes : List (Node D)) (w : Nat) :
    pushChild l (pushChild r (nodes, w)) =
      (nodes ++ (Node.mk d l r).children, w + (Node.mk d l r).children.length) := by
  cases l <;> cases r <;> simp [pushChild, Node.children, Node.isNull]

theorem Node.children_nonnull (n : Node D) : ∀ c ∈ n.children, c.isNull = false := by
  cases n with
  | null => simp [Node.children]
  | mk d l r =>
    intro c hc
    cases l <;> cases r <;> simp [Node.children, Node.isNull] at hc
    · subst hc; rfl
    · subst hc; rfl
    · rcases hc with rfl | rfl <;> rfl

theorem nextLevel_nonnull (q : List (Node D)) : ∀ c ∈ nextLevel q, c.isNull = false := by
  induction q with
  | nil => simp [nextLevel]
  | cons n q ih =>
    intro c hc
    simp only [nextLevel, List.mem_append] at hc
    rcases hc with hc | hc
    · exact Node.children_nonnull n c hc
    · exact ih c hc

theorem nextLevel_append (q1 q2 : List (Node D)) :
    nextLevel (q1 ++ q2) = nextLevel q1 ++ nextLevel q2 := by
  induction q1 with
  | nil => simp [nextLevel]
  | cons n q ih => simp [nextLevel, ih]

theorem forLoop_level (q : List (Node D)) (hq : ∀ n ∈ q, n.isNull = false)
    (rest : List (Node D)) (w : Nat) :
    forLoop q.length (q ++ rest) w = some (rest ++ nextLevel q, w + (nextLevel q).length) := by
  induction q generalizing rest w with
  | nil => simp [forLoop, nextLevel]
  | cons n q ih =>
    cases n with
    | null => simpa [Node.isNull] using hq Node.null (by simp)
    | mk d l r =>
      simp only [List.length_cons, List.cons_append, forLoop]
      rw [pushChild_pair d l r]
      simp only [List.append_eq, List.append_assoc]
      rw [ih (fun m hm => hq m (by simp [hm]))]
      simp [nextLevel, Nat.add_assoc]

theorem Node.children_length (n : Node D) : n.children.length = n.levelWidth 1 := by
  cases n with
  | null => rfl
  | mk d l r => cases l <;> cases r <;> simp [Node.children, Node.isNull, Node.levelWidth]

theorem nextLevel_length (q : List (Node D)) : (nextLevel q).length = forestWidth q 1 := by
  induction q with
  | nil => rfl
  | cons n q ih =>
    simp only [nextLevel, List.length_append, ih, Node.children_length, forestWidth,
      List.map_cons, List.sum_cons]

theorem Node.children_forestWidth (n : Node D) (d : Nat) :
    forestWidth n.children d = n.levelWidth (d + 1) := by
  cases n with
  | null => rfl
  | mk x l r =>
    cases l <;> cases r <;>
      simp [Node.children, Node.isNull, Node.levelWidth, forestWidth, Node.levelWidth_null,
        Nat.add_comm]

theorem forestWidth_append (q1 q2 : List (Node D)) (d : Nat) :
    forestWidth (q1 ++ q2) d = forestWidth q1 d + forestWidth q2 d := by
  simp [forestWidth]

theorem nextLevel_forestWidth (q : List (Node D)) (d : Nat) :
    forestWidth (nextLevel q) d = forestWidth q (d + 1) := by
  induction q with
  | nil => rfl
  | cons n q ih =>
    rw [nextLevel, forestWidth_append, ih, Node.children_forestWidth]
    simp [forestWidth]

theorem Node.children_forestSize (d : D) (l r : Node D) :
    forestSize (Node.mk d l r).children + 1 = (Node.mk d l r).size := by
  cases l <;> cases r <;> simp [Node.children, Node.isNull, Node.size, forestSize]
  omega

theorem nextLevel_forestSize (q : List (Node D)) (hq : ∀ n ∈ q, n.isNull = false) :
    forestSize (nextLevel q) + q.length = forestSize q := by
  induction q with
  | nil => rfl
  | cons n q ih =>
    cases n with
    | null => simpa [Node.isNull] using hq Node.null (by simp)
    | mk d l r =>
      have h1 := ih (fun m hm => hq m (by simp [hm]))
      have h2 := Node.children_forestSize d l r
      simp only [nextLevel, forestSize, List.map_append, List.sum_append, List.map_cons,
        List.sum_cons, List.length_cons] at h1 h2 ⊢
      omega

theorem whileLoop_spec (fuel : Nat) (q : List (Node D)) (hq : ∀ n ∈ q, n.isNull = false)
    (hf : forestSize q ≤ fuel) (mw : Nat) :
    ∃ w, whileLoop fuel q q.length mw = some (0, w) ∧ mw ≤ w ∧
      (∀ d, 1 ≤ d → forestWidth q d ≤ w) ∧
      (w = mw ∨ ∃ d, 1 ≤ d ∧ forestWidth q d = w) := by
  induction fuel generalizing q mw with
  | zero =>
    cases q with
    | nil => exact ⟨mw, by simp [whileLoop], le_refl _, by simp [forestWidth], Or.inl rfl⟩
    | cons n q =>
      have := nextLevel_forestSize (n :: q) hq
      simp only [List.length_cons] at this
      omega
  | succ fuel ih =>
    cases q with
    | nil => exact ⟨mw, by simp [whileLoop], le_refl _, by simp [forestWidth], Or.inl rfl⟩
    | cons n q =>
      have hsz := nextLevel_forestSize (n :: q) hq
      simp only [List.length_cons] at hsz
      have hfl := forLoop_level (n :: q) hq [] 0
      simp only [List.append_nil, List.nil_append, Nat.zero_add] at hfl
      obtain ⟨w, hw, hmw, hall, hex⟩ := ih (nextLevel (n :: q)) (nextLevel_nonnull _)
        (by omega)
        (if (nextLevel (n :: q)).length > mw then (nextLevel (n :: q)).length else mw)
      refine ⟨w, ?_, ?_, ?_, ?_⟩
      · simp only [whileLoop, hfl]
        exact hw
      · split at hmw <;> omega
      · intro d hd
        cases d with
        | zero => omega
        | succ d =>
          cases d with
          | zero =>
            rw [← nextLevel_length]
            split at hmw <;> omega
          | succ d =>
            rw [← nextLevel_forestWidth]
            exact hall (d + 1) (by omega)
      · rcases hex with hex | ⟨d, hd, hex⟩
        · by_cases hgt : (nextLevel (n :: q)).length > mw
          · rw [if_pos hgt] at hex
            exact Or.inr ⟨1, le_refl _, by rw [← nextLevel_length]; exact hex.symm⟩
          · rw [if_neg hgt] at hex
            exact Or.inl hex
        · exact Or.inr ⟨d + 1, by omega, by rw [← nextLevel_forestWidth]; exact hex⟩

theorem countWidth_spec (t : Node D) :
    ∃ w, countWidth t = some w ∧ (∀ d, 1 ≤ d → t.levelWidth d ≤ w) ∧
      (∃ d, 1 ≤ d ∧ t.levelWidth d = w) := by
  cases t with
  | null =>
    exact ⟨0, rfl, fun d _ => by rw [Node.levelWidth_null], 1, le_refl _, rfl⟩
  | mk x l r =>
    obtain ⟨w, hw, _, hall, hex⟩ := whileLoop_spec ((Node.mk x l r).size + 1) [Node.mk x l r]
      (by simp [Node.isNull]) (by simp [forestSize]) 0
    have hfw : ∀ d, forestWidth [Node.mk x l r] d = (Node.mk x l r).levelWidth d := by
      intro d; simp [forestWidth]
    refine ⟨w, ?_, ?_, ?_⟩
    · simp only [List.length_singleton] at hw
      simp [countWidth, Node.isNull, hw]
    · intro d hd
      rw [← hfw]
      exact hall d hd
    · rcases hex with hex | ⟨d, hd, hex⟩
      · refine ⟨1, le_refl _, ?_⟩
        have := hall 1 (le_refl _)
        rw [hfw] at this
        omega
      · exact ⟨d, hd, by rw [← hfw]; exact hex⟩

/-! ### The maximum level width -/

theorem foldl_max_ge (xs : List Nat) (a : Nat) :
    a ≤ xs.foldl max a ∧ ∀ x ∈ xs, x ≤ xs.foldl max a := by
  induction xs generalizing a with
  | nil => simp
  | cons y ys ih =>
    obtain ⟨h1, h2⟩ := ih (max a y)
    simp only [List.foldl_cons, List.mem_cons, forall_eq_or_imp]
    exact ⟨le_trans (le_max_left a y) h1, le_trans (le_max_right a y) h1, h2⟩

theorem foldl_max_attained (xs : List Nat) (a : Nat) :
    xs.foldl max a = a ∨ xs.foldl max a ∈ xs := by
  induction xs generalizing a with
  | nil => simp
  | cons y ys ih =>
    simp only [List.foldl_cons, List.mem_cons]
    rcases ih (max a y) with h | h
    · rw [h]
      rcases le_total a y with hay | hay
      · exact Or.inr (Or.inl (max_eq_right hay))
      · exact Or.inl (max_eq_left hay)
    · exact Or.inr (Or.inr h)

theorem Node.levelWidth_of_height_le (t : Node D) (d : Nat) (h : t.height ≤ d) :
    t.levelWidth d = 0 := by
  induction t generalizing d with
  | null => exact Node.levelWidth_null d
  | mk x l r ihl ihr =>
    cases d with
    | zero => simp [Node.height] at h
    | succ d =>
      simp only [Node.height, Nat.add_le_add_iff_right, max_le_iff] at h
      simp [Node.levelWidth, ihl d h.1, ihr d h.2]

theorem Node.levelWidth_le_maxLevelWidth (t : Node D) (d : Nat) :
    t.levelWidth d ≤ t.maxLevelWidth := by
  by_cases hd : d < t.height
  · exact (foldl_max_ge _ 0).2 _ (List.mem_map.2 ⟨d, List.mem_range.2 hd, rfl⟩)
  · rw [Node.levelWidth_of_height_le t d (by omega)]
    exact Nat.zero_le _

theorem Node.maxLevelWidth_attained (t : Node D) :
    t.maxLevelWidth = 0 ∨ ∃ d, t.levelWidth d = t.maxLevelWidth := by
  rcases foldl_max_attained ((List.range t.height).map t.levelWidth) 0 with h | h
  · exact Or.inl h
  · obtain ⟨d, _, hd⟩ := List.mem_map.1 h
    exact Or.inr ⟨d, hd⟩

theorem Node.levelWidth_one_pos (t : Node D) (h : t.hasChild = true) : 1 ≤ t.levelWidth 1 := by
  cases t with
  | null => simp [Node.hasChild] at h
  | mk x l r =>
    cases l <;> cases r <;> simp [Node.hasChild, Node.isNull, Node.levelWidth] at h ⊢

theorem Node.levelWidth_of_no_child (t : Node D) (h : t.hasChild = false) (d : Nat)
    (hd : 1 ≤ d) : t.levelWidth d = 0 := by
  cases t with
  | null => exact Node.levelWidth_null d
  | mk x l r =>
    cases l <;> cases r <;> simp [Node.hasChild, Node.isNull] at h
    cases d with
    | zero => omega
    | succ d => simp [Node.levelWidth, Node.levelWidth_null]

/-! ### countWidth depends on the links only -/

theorem Node.isNull_map {E : Type} (f : D → E) (t : Node D) :
    (Node.map f t).isNull = t.isNull := by
  cases t <;> rfl

theorem Node.size_map {E : Type} (f : D → E) (t : Node D) : (Node.map f t).size = t.size := by
  induction t with
  | null => rfl
  | mk d l r ihl ihr => simp [Node.map, Node.size, ihl, ihr]

theorem pushChild_map {E : Type} (f : D → E) (c : Node D) (st : List (Node D) × Nat) :
    pushChild (Node.map f c) (st.1.map (Node.map f), st.2) =
      ((pushChild c st).1.map (Node.map f), (pushChild c st).2) := by
  cases c <;> simp [pushChild, Node.map, Node.isNull]

theorem forLoop_map {E : Type} (f : D → E) (k : Nat) (q : List (Node D)) (w : Nat) :
    forLoop k (q.map (Node.map f)) w =
      (forLoop k q w).map (fun st => (st.1.map (Node.map f), st.2)) := by
  induction k generalizing q w with
  | zero => simp [forLoop]
  | succ k ih =>
    cases q with
    | nil => simp [forLoop]
    | cons n q =>
      cases n with
      | null => simp [forLoop, Node.map]
      | mk d l r =>
        simp only [List.map_cons, Node.map, forLoop]
        have h1 := pushChild_map f r (q, w)
        simp only at h1
        rw [h1]
        have h2 := pushChild_map f l (pushChild r (q, w))
        rw [h2]
        exact ih _ _

theorem whileLoop_map {E : Type} (f : D → E) (fuel : Nat) (q : List (Node D)) (c m : Nat) :
    whileLoop fuel (q.map (Node.map f)) c m = whileLoop fuel q c m := by
  induction fuel generalizing q c m with
  | zero => cases q <;> simp [whileLoop]
  | succ fuel ih =>
    cases q with
    | nil => simp [whileLoop]
    | cons n q =>
      have h := forLoop_map f c (n :: q) 0
      simp only [List.map_cons] at h
      simp only [List.map_cons, whileLoop, h]
      cases hfl : forLoop c (n :: q) 0 with
      | none => rfl
      | some st => exact ih _ _ _

theorem countWidth_map {E : Type} (f : D → E) (t : Node D) :
    countWidth (Node.map f t) = countWidth t := by
  have h := whileLoop_map f (t.size + 1) [t] 1 0
  simp only [List.map_cons, List.map_nil] at h
  simp only [countWidth, Node.isNull_map, Node.size_map, h]

theorem Node.levelWidth_zero_le (t : Node D) : t.levelWidth 0 ≤ 1 := by
  cases t <;> simp [Node.levelWidth]

theorem Node.levelWidth_zero_of_nonnull (t : Node D) (h : t.isNull = false) :
    t.levelWidth 0 = 1 := by
  cases t with
  | null => simp [Node.isNull] at h
  | mk x l r => rfl

/-! ### Treap with non-increasing priorities -/

theorem Treap.map_addRec_of_le (comp : T → T → Bool) (v : T) (p : Nat)
    (t : Node (Prioritized T)) (h : ∀ x ∈ t.toList, p ≤ x.priority) :
    Node.map Prioritized.value (Treap.addRec comp v p t) =
      Tree.insertRec comp v (Node.map Prioritized.value t) := by
  induction t with
  | null => simp [Treap.addRec, Tree.insertRec, Node.map]
  | mk d l r ihl ihr =>
    have hd : ¬ d.priority < p := Nat.not_lt.2 (h d (by simp [Node.toList]))
    have hl := ihl (fun x hx => h x (by simp [Node.toList, hx]))
    have hr := ihr (fun x hx => h x (by simp [Node.toList, hx]))
    cases hc : comp v d.value <;>
      simp [Treap.addRec, Tree.insertRec, Node.map, hd, hc, hl, hr]

theorem Treap.map_build_of_nonincreasing (comp : T → T → Bool) (items : List (T × Nat))
    (h : (items.map Prod.snd).Pairwise (· ≥ ·)) :
    Node.map Prioritized.value (Treap.build comp items) =
      Tree.build comp (items.map Prod.fst) := by
  induction items using List.reverseRecOn with
  | nil => simp [Treap.build, Tree.build, Node.map]
  | append_singleton ys z ih =>
    rw [List.map_append, List.pairwise_append] at h
    rw [Treap.build_snoc_addRec, List.map_append, List.map_singleton, Tree.build_snoc,
      ← ih h.1]
    apply Treap.map_addRec_of_le
    intro x hx
    have hx2 := (Treap.build_toList_perm comp ys).subset hx
    obtain ⟨y, hy, rfl⟩ := List.mem_map.1 hx2
    exact h.2.2 y.2 (List.mem_map.2 ⟨y, hy, rfl⟩) z.2 (by simp)

/-! ### Treap: canonical shape -/

theorem Node.nodup_map_node {E : Type} (f : D → E) (d : D) (l r : Node D)
    (h : ((Node.mk d l r).toList.map f).Nodup) :
    (l.toList.map f).Nodup ∧ (r.toList.map f).Nodup ∧
      (∀ x ∈ l.toList, f x ≠ f d) ∧ (∀ y ∈ r.toList, f y ≠ f d) ∧
      (∀ x ∈ l.toList, ∀ y ∈ r.toList, f x ≠ f y) := by
  simp only [Node.toList, List.map_append, List.map_cons] at h
  rw [List.nodup_append] at h
  obtain ⟨h1, h2, h3⟩ := h
  rw [List.nodup_cons] at h2
  refine ⟨h1, h2.2, ?_, ?_, ?_⟩
  · intro x hx heq
    exact h3 (List.mem_map.2 ⟨x, hx, rfl⟩) (by rw [heq]; exact List.mem_cons_self _ _)
  · intro y hy heq
    exact h2.1 (by rw [← heq]; exact List.mem_map.2 ⟨y, hy, rfl⟩)
  · intro x hx y hy heq
    exact h3 (List.mem_map.2 ⟨x, hx, rfl⟩)
      (List.mem_cons_of_mem _ (by rw [heq]; exact List.mem_map.2 ⟨y, hy, rfl⟩))

theorem Treap.unique_shape (t1 t2 : Node (Prioritized Int))
    (hw1 : Node.WeaklyOrdered Prioritized.value DefaultComparator t1)
    (hw2 : Node.WeaklyOrdered Prioritized.value DefaultComparator t2)
    (hh1 : Treap.Heap t1) (hh2 : Treap.Heap t2)
    (hv1 : (t1.toList.map Prioritized.value).Nodup)
    (hv2 : (t2.toList.map Prioritized.value).Nodup)
    (hp1 : (t1.toList.map Prioritized.priority).Nodup)
    (hmem : ∀ x, x ∈ t1.toList ↔ x ∈ t2.toList) : t1 = t2 := by
  induction t1 generalizing t2 with
  | null =>
    cases t2 with
    | null => rfl
    | mk d2 l2 r2 =>
      have := (hmem d2).2 (by simp [Node.toList])
      simp [Node.toList] at this
  | mk d1 l1 r1 ihl ihr =>
    cases t2 with
    | null =>
      have := (hmem d1).1 (by simp [Node.toList])
      simp [Node.toList] at this
    | mk d2 l2 r2 =>
      have hd1 : d1 ∈ (Node.mk d1 l1 r1).toList := by simp [Node.toList]
      have hd2 : d2 ∈ (Node.mk d2 l2 r2).toList := by simp [Node.toList]
      have hle1 : d1.priority ≤ d2.priority :=
        Treap.all_le_of_heap d2.priority _ hh2 (le_refl _) d1 ((hmem d1).1 hd1)
      have hle2 : d2.priority ≤ d1.priority :=
        Treap.all_le_of_heap d1.priority _ hh1 (le_refl _) d2 ((hmem d2).2 hd2)
      have hd : d1 = d2 :=
        List.inj_on_of_nodup_map hp1 hd1 ((hmem d2).2 hd2) (le_antisymm hle1 hle2)
      subst hd
      obtain ⟨hl1, hr1, wl1, wr1⟩ := hw1
      obtain ⟨hl2, hr2, wl2, wr2⟩ := hw2
      obtain ⟨nvl1, nvr1, nel1, ner1, _⟩ := Node.nodup_map_node Prioritized.value _ _ _ hv1
      obtain ⟨nvl2, nvr2, nel2, ner2, _⟩ := Node.nodup_map_node Prioritized.value _ _ _ hv2
      obtain ⟨npl1, npr1, _, _, _⟩ := Node.nodup_map_node Prioritized.priority _ _ _ hp1
      have key : ∀ (la ra lb rb : Node (Prioritized Int)),
          (∀ y ∈ la.toList, DefaultComparator d1.value y.value = false) →
          (∀ y ∈ ra.toList, DefaultComparator y.value d1.value = false) →
          (∀ y ∈ lb.toList, DefaultComparator d1.value y.value = false) →
          (∀ y ∈ rb.toList, DefaultComparator y.value d1.value = false) →
          (∀ x ∈ la.toList, x.value ≠ d1.value) → (∀ x ∈ ra.toList, x.value ≠ d1.value) →
          (∀ x ∈ lb.toList, x.value ≠ d1.value) → (∀ x ∈ rb.toList, x.value ≠ d1.value) →
          (∀ x, x ∈ (Node.mk d1 la ra).toList → x ∈ (Node.mk d1 lb rb).toList) →
          (∀ x ∈ la.toList, x ∈ lb.toList) ∧ (∀ x ∈ ra.toList, x ∈ rb.toList) := by
        intro la ra lb rb hla hra hlb hrb nla nra nlb nrb hsub
        constructor
        · intro x hx
          have hx2 := hsub x (by simp [Node.toList, hx])
          simp only [Node.toList, List.mem_append, List.mem_cons] at hx2
          rcases hx2 with hx2 | rfl | hx2
          · exact hx2
          · exact absurd rfl (nla x hx)
          · have h1 := hla x hx
            have h2 := hrb x hx2
            have h3 := nla x hx
            simp only [DefaultComparator, decide_eq_false_iff_not] at h1 h2
            omega
        · intro x hx
          have hx2 := hsub x (by simp [Node.toList, hx])
          simp only [Node.toList, List.mem_append, List.mem_cons] at hx2
          rcases hx2 with hx2 | rfl | hx2
          · have h1 := hra x hx
            have h2 := hlb x hx2
            have h3 := nra x hx
            simp only [DefaultComparator, decide_eq_false_iff_not] at h1 h2
            omega
          · exact absurd rfl (nra x hx)
          · exact hx2
      have k1 := key l1 r1 l2 r2 hl1 hr1 hl2 hr2 nel1 ner1 nel2 ner2 (fun x hx => (hmem x).1 hx)
      have k2 := key l2 r2 l1 r1 hl2 hr2 hl1 hr1 nel2 ner2 nel1 ner1 (fun x hx => (hmem x).2 hx)
      have el : l1 = l2 := ihl l2 wl1 wl2 hh1.2.2.1 hh2.2.2.1 nvl1 nvl2 npl1
        (fun x => ⟨k1.1 x, k2.1 x⟩)
      have er : r1 = r2 := ihr r2 wr1 wr2 hh1.2.2.2 hh2.2.2.2 nvr1 nvr2 npr1
        (fun x => ⟨k1.2 x, k2.2 x⟩)
      rw [el, er]

theorem Treap.build_perm (items1 items2 : List (Int × Nat)) (h : items1.Perm items2)
    (hv : (items1.map Prod.fst).Nodup) (hp : (items1.map Prod.snd).Nodup) :
    Treap.build DefaultComparator items1 = Treap.build DefaultComparator items2 := by
  have p1 := Treap.build_toList_perm DefaultComparator items1
  have p2 := Treap.build_toList_perm DefaultComparator items2
  have hmapv : ∀ items : List (Int × Nat),
      ((Treap.build DefaultComparator items).toList.map Prioritized.value).Perm
        (items.map Prod.fst) := by
    intro items
    have h := (Treap.build_toList_perm DefaultComparator items).map Prioritized.value
    simpa [List.map_map, Function.comp_def] using h
  have hmapp : ((Treap.build DefaultComparator items1).toList.map Prioritized.priority).Perm
      (items1.map Prod.snd) := by
    have h := p1.map Prioritized.priority
    simpa [List.map_map, Function.comp_def] using h
  apply Treap.unique_shape
  · exact Treap.build_weaklyOrdered_all DefaultComparator DefaultComparator_strictWeak items1
  · exact Treap.build_weaklyOrdered_all DefaultComparator DefaultComparator_strictWeak items2
  · exact Treap.build_heap_all DefaultComparator items1
  · exact Treap.build_heap_all DefaultComparator items2
  · exact (hmapv items1).nodup_iff.2 hv
  · exact (hmapv items2).nodup_iff.2 ((h.map Prod.fst).nodup_iff.1 hv)
  · exact hmapp.nodup_iff.2 hp
  · intro x
    rw [p1.mem_iff, p2.mem_iff]
    exact (h.map _).mem_iff

/-! ### Tree: the iterative post-order walk -/

theorem Tree.postOrderSteps_le (t : Node D) : Tree.postOrderSteps t ≤ 3 * t.size := by
  induction t with
  | null => simp [Tree.postOrderSteps]
  | mk d l r ihl ihr =>
    simp only [Tree.postOrderSteps, Node.size]
    split <;> omega

theorem Tree.postOrderLoop_done (fuel : Nat) (st : PostOrderState D)
    (h : Tree.postOrderCond st = false) : Tree.postOrderLoop fuel st = some st.visited := by
  cases fuel <;> simp [Tree.postOrderLoop, h]

theorem Tree.postOrderLoop_succ (fuel : Nat) (st : PostOrderState D)
    (h : Tree.postOrderCond st = true) :
    Tree.postOrderLoop (fuel + 1) st = Tree.postOrderLoop fuel (Tree.postOrderBody st) := by
  simp [Tree.postOrderLoop, h]

theorem Tree.postOrderLoop_subtree (s : Node D) (a : List Dir) (H : List (NodeRef D))
    (L : Option (List Dir)) (O : List (NodeRef D)) (extra : Nat)
    (hL : ∀ q, L ≠ some (a ++ q)) :
    Tree.postOrderLoop (Tree.postOrderSteps s + extra) ⟨Node.ref a s, H, L, O⟩ =
      Tree.postOrderLoop extra
        ⟨none, H, if s.isNull then L else some a, O ++ Treap.postOrder a s⟩ := by
  induction s generalizing a H L O extra with
  | null => simp [Tree.postOrderSteps, Node.ref, Treap.postOrder, Node.isNull]
  | mk d l r ihl ihr =>
    have hfuel : Tree.postOrderSteps (Node.mk d l r) + extra =
        (Tree.postOrderSteps l +
          ((if r.isNull then 0 else 1) + Tree.postOrderSteps r + 1 + extra)) + 1 := by
      simp only [Tree.postOrderSteps]; omega
    rw [hfuel, Tree.postOrderLoop_succ _ _ (by simp [Tree.postOrderCond, Node.ref])]
    have hbody : Tree.postOrderBody ⟨Node.ref a (Node.mk d l r), H, L, O⟩ =
        ⟨Node.ref (a ++ [Dir.left]) l, ⟨a, d, l, r⟩ :: H, L, O⟩ := by
      simp [Tree.postOrderBody, Node.ref]
    rw [hbody, ihl (a ++ [Dir.left]) _ L O _ (fun q => by rw [List.append_assoc]; exact hL _)]
    have hL1 : ∀ q, (if l.isNull then L else some (a ++ [Dir.left])) ≠
        some ((a ++ [Dir.right]) ++ q) := by
      intro q
      split
      · rw [List.append_assoc]; exact hL _
      · intro h
        have h2 := Option.some.inj h
        rw [List.append_assoc, List.append_cancel_left_eq] at h2
        simp at h2
    cases r with
    | null =>
      have hf2 : (if (Node.null : Node D).isNull then 0 else 1) +
          Tree.postOrderSteps (Node.null : Node D) + 1 + extra = extra + 1 := by
        simp [Tree.postOrderSteps, Node.isNull]; omega
      rw [hf2, Tree.postOrderLoop_succ _ _ (by simp [Tree.postOrderCond])]
      simp [Tree.postOrderBody, Node.isNull, Treap.postOrder]
    | mk y rl rr =>
      have hf2 : (if (Node.mk y rl rr).isNull then 0 else 1) +
          Tree.postOrderSteps (Node.mk y rl rr) + 1 + extra =
          (Tree.postOrderSteps (Node.mk y rl rr) + (extra + 1)) + 1 := by
        simp [Node.isNull]; omega
      rw [hf2, Tree.postOrderLoop_succ _ _ (by simp [Tree.postOrderCond])]
      have hb2 : Tree.postOrderBody
          ⟨none, ⟨a, d, l, Node.mk y rl rr⟩ :: H,
            if l.isNull then L else some (a ++ [Dir.left]), O ++ Treap.postOrder (a ++ [Dir.left]) l⟩ =
          ⟨Node.ref (a ++ [Dir.right]) (Node.mk y rl rr), ⟨a, d, l, Node.mk y rl rr⟩ :: H,
            if l.isNull then L else some (a ++ [Dir.left]),
            O ++ Treap.postOrder (a ++ [Dir.left]) l⟩ := by
        have h0 := hL1 []
        simp only [List.append_nil] at h0
        have hn : (Node.mk y rl rr).isNull = false := rfl
        simp [Tree.postOrderBody, hn, h0]
      rw [hb2, ihr (a ++ [Dir.right]) _ _ _ _ hL1,
        Tree.postOrderLoop_succ _ _ (by simp [Tree.postOrderCond])]
      simp [Tree.postOrderBody, Node.isNull, Treap.postOrder]

theorem Tree.postOrder_eq (t : Node D) : Tree.postOrder t = some (Treap.postOrder [] t) := by
  have hle := Tree.postOrderSteps_le t
  have h := Tree.postOrderLoop_subtree t [] [] none [] (3 * t.size - Tree.postOrderSteps t)
    (by simp)
  rw [show Tree.postOrderSteps t + (3 * t.size - Tree.postOrderSteps t) = 3 * t.size by omega]
    at h
  rw [Tree.postOrder, h, Tree.postOrderLoop_done _ _ (by simp [Tree.postOrderCond])]
  simp

theorem Treap.postOrder_addr (a : List Dir) (t : Node D) :
    ∀ x ∈ Treap.postOrder a t, ∃ q, x.addr = a ++ q := by
  induction t generalizing a with
  | null => simp [Treap.postOrder]
  | mk d l r ihl ihr =>
    intro x hx
    simp only [Treap.postOrder, List.mem_append, List.mem_singleton] at hx
    rcases hx with (hx | hx) | rfl
    · obtain ⟨q, hq⟩ := ihl _ x hx
      exact ⟨Dir.left :: q, by rw [hq]; simp⟩
    · obtain ⟨q, hq⟩ := ihr _ x hx
      exact ⟨Dir.right :: q, by rw [hq]; simp⟩
    · exact ⟨[], by simp⟩

theorem Treap.postOrder_length (a : List Dir) (t : Node D) :
    (Treap.postOrder a t).length = t.size := by
  induction t generalizing a with
  | null => rfl
  | mk d l r ihl ihr => simp [Treap.postOrder, Node.size, ihl, ihr, Nat.add_assoc]

theorem Treap.mem_postOrder (a : List Dir) (t : Node D) (x : NodeRef D) :
    x ∈ Treap.postOrder a t ↔
      ∃ q, x.addr = a ++ q ∧ t.subtreeAt q = some (Node.mk x.data x.left x.right) := by
  induction t generalizing a with
  | null =>
    simp only [Treap.postOrder, List.not_mem_nil, false_iff, not_exists, not_and]
    intro q _
    cases q <;> simp [Node.subtreeAt]
  | mk d l r ihl ihr =>
    simp only [Treap.postOrder, List.mem_append, List.mem_singleton, ihl, ihr]
    constructor
    · rintro ((⟨q, hq, hs⟩ | ⟨q, hq, hs⟩) | rfl)
      · exact ⟨Dir.left :: q, by rw [hq]; simp, by simpa [Node.subtreeAt] using hs⟩
      · exact ⟨Dir.right :: q, by rw [hq]; simp, by simpa [Node.subtreeAt] using hs⟩
      · exact ⟨[], by simp, by simp [Node.subtreeAt]⟩
    · rintro ⟨q, hq, hs⟩
      cases q with
      | nil =>
        right
        simp only [Node.subtreeAt, Option.some.injEq, Node.mk.injEq] at hs
        obtain ⟨h1, h2, h3⟩ := hs
        cases x
        simp only [List.append_nil] at hq
        simp only at h1 h2 h3
        subst hq h1 h2 h3
        rfl
      | cons b q =>
        cases b with
        | left =>
          exact Or.inl (Or.inl ⟨q, by rw [hq]; simp, by simpa [Node.subtreeAt] using hs⟩)
        | right =>
          exact Or.inl (Or.inr ⟨q, by rw [hq]; simp, by simpa [Node.subtreeAt] using hs⟩)

theorem Treap.postOrder_children_first (a : List Dir) (t : Node D) :
    (Treap.postOrder a t).Pairwise (fun x y => ∀ q, y.addr ≠ x.addr ++ q) := by
  induction t generalizing a with
  | null => simp [Treap.postOrder]
  | mk d l r ihl ihr =>
    simp only [Treap.postOrder]
    rw [List.pairwise_append, List.pairwise_append]
    refine ⟨⟨ihl _, ihr _, ?_⟩, List.pairwise_singleton _ _, ?_⟩
    · intro x hx y hy q h
      obtain ⟨q1, h1⟩ := Treap.postOrder_addr _ l x hx
      obtain ⟨q2, h2⟩ := Treap.postOrder_addr _ r y hy
      rw [h1, h2] at h
      simp only [List.append_assoc, List.append_cancel_left_eq, List.singleton_append] at h
      have h3 := List.head_eq_of_cons_eq h
      exact absurd h3 (by decide)
    · intro x hx y hy q h
      simp only [List.mem_singleton] at hy
      subst hy
      simp only [List.mem_append] at hx
      rcases hx with hx | hx
      · obtain ⟨q1, h1⟩ := Treap.postOrder_addr _ l x hx
        rw [h1] at h
        have := congrArg List.length h
        simp at this
      · obtain ⟨q1, h1⟩ := Treap.postOrder_addr _ r x hx
        rw [h1] at h
        have := congrArg List.length h
        simp at this

end Basic

/-! ## Main results -/

section Claims

variable {T : Type}

/-- C1 (evaluation at the failing input): on the tree holding the single node
`7`, whose level 0 has one node, `countWidth` returns 0, not the maximum level
width 1. -/
theorem countWidth_single_node_ignores_root_level :
    countWidth (Node.mk (7 : Int) Node.null Node.null) = some 0 ∧
      (Node.mk (7 : Int) Node.null Node.null).maxLevelWidth = 1 := by
  constructor <;> rfl

/-- C2: after each `Tree::add` of a sequence of values into an empty tree (every
initial segment `values.take k`), every node has only comparator-less values in its left
subtree and only not-less values in its right subtree.  This holds for every
comparator, in particular for every strict weak ordering. -/
theorem Tree.bst_order_after_each_add (comp : T → T → Bool) (values : List T) (k : Nat) :
    Node.Ordered id comp (Tree.build comp (values.take k)) :=
  Tree.build_ordered_all comp (values.take k)

/-- C3: after each `Treap::add` of a sequence of (value, priority) pairs into an
empty treap, for any comparator and with ties in priority allowed, no child has
a larger priority than its parent. -/
theorem Treap.heap_after_each_add (comp : T → T → Bool) (items : List (T × Nat)) (k : Nat) :
    Treap.Heap (Treap.build comp (items.take k)) :=
  Treap.build_heap_all comp (items.take k)

/-- C4 (counterexample): with the strict weak ordering `<` on integers, adding
(5, 1) then (5, 2) to an empty treap puts the first 5 in the left subtree of the
second, where it is not strictly less than the node value. -/
theorem Treap.strict_order_fails_for_repeated_value :
    StrictWeakOrder DefaultComparator ∧
      ¬ Node.Ordered Prioritized.value DefaultComparator
        (Treap.build DefaultComparator [(5, 1), (5, 2)]) := by
  refine ⟨DefaultComparator_strictWeak, ?_⟩
  intro h
  have h1 := h.1 ⟨5, 1⟩ (by decide)
  revert h1
  decide

/-- C4 (amended): for every strict weak ordering, after each `Treap::add` of a
sequence of (value, priority) pairs into an empty treap, every node has in its
left subtree only values that it is not comparator-less than (less or
equivalent), and in its right subtree only values that are not comparator-less
than it. -/
theorem Treap.weak_order_after_each_add (comp : T → T → Bool) (hc : StrictWeakOrder comp)
    (items : List (T × Nat)) (k : Nat) :
    Node.WeaklyOrdered Prioritized.value comp (Treap.build comp (items.take k)) :=
  Treap.build_weaklyOrdered_all comp hc (items.take k)

theorem Treap.weak_order_after_each_add_witness :
    StrictWeakOrder DefaultComparator ∧
      Node.WeaklyOrdered Prioritized.value DefaultComparator
        (Treap.build DefaultComparator
          (List.take 2 [((5 : Int), 1), (5, 2), (3, 7)])) :=
  ⟨DefaultComparator_strictWeak,
    Treap.weak_order_after_each_add DefaultComparator DefaultComparator_strictWeak
      [((5 : Int), 1), (5, 2), (3, 7)] 2⟩

/-- C5 (evaluation): for every value and priority, `maxWidth` of the one-node
tree made by a single `Tree::add`, and of the one-node treap made by a single
`Treap::add`, returns 0 rather than 1. -/
theorem maxWidth_after_single_add (comp : T → T → Bool) (v : T) (p : Nat) :
    Tree.maxWidth (Tree.add comp Node.null v) = some 0 ∧
      Treap.maxWidth (Treap.add comp Node.null v p) = some 0 := by
  constructor <;> rfl

/-- C6: scenario A of `test1`: the treap width minus the tree width is 1. -/
theorem scenario_A_width_difference :
    widthDifference [5, 18, 25, 50, 30, 15, 20, 22, 40, 45]
      [11, 8, 7, 12, 30, 15, 10, 5, 20, 9] = some 1 := by
  rfl

/-- C7: scenario B of `test2`: the treap width minus the tree width is 1. -/
theorem scenario_B_width_difference :
    widthDifference [38, 37, 47, 35, 12, 0, 31, 21, 30, 41]
      [19, 5, 15, 0, 3, 42, 37, 45, 26, 6] = some 1 := by
  rfl

/-- C8: `Tree::add` redirects exactly one absent link (the one at the end of a
unique path `p`, the root link when the tree is empty) to a new childless node
holding the value and leaves the rest of the tree as it was: every node keeps
its data at its path, and the number of nodes grows by one. -/
theorem Tree.add_inserts_one_leaf (comp : T → T → Bool) (t : Node T) (v : T) :
    ∃ p, t.subtreeAt p = some Node.null ∧
      Tree.add comp t v = Node.graft (Node.mk v Node.null Node.null) t p ∧
      (∀ q, t.subtreeAt q = some Node.null →
        Tree.add comp t v = Node.graft (Node.mk v Node.null Node.null) t q → q = p) ∧
      (∀ q x, t.dataAt q = some x → (Tree.add comp t v).dataAt q = some x) ∧
      (Tree.add comp t v).size = t.size + 1 := by
  obtain ⟨p, hp, he⟩ := Tree.insertRec_eq_graft comp v t
  rw [Tree.add_eq_insertRec]
  refine ⟨p, hp, he, ?_, ?_, ?_⟩
  · intro q hq heq
    exact Node.graft_leaf_injective v t q p hq hp (heq.symm.trans he)
  · intro q x hq
    rw [he]
    exact Node.dataAt_graft_leaf _ t p hp q x hq
  · rw [he]
    exact Node.size_graft_leaf v t p hp

/-- C9: adding (v, p) to a non-empty treap whose root holds (rv, rp) makes the
new node the root when `rp < p`, and keeps the root (rv, rp) otherwise, equal
priorities included. -/
theorem Treap.add_root (comp : T → T → Bool) (rv : T) (rp : Nat)
    (l r : Node (Prioritized T)) (v : T) (p : Nat) :
    (Treap.add comp (Node.mk ⟨rv, rp⟩ l r) v p).rootData =
      if rp < p then some ⟨v, p⟩ else some ⟨rv, rp⟩ := by
  by_cases hp : rp < p
  · simp [Treap.add, Treap.addRec, hp, Node.rootData]
  · cases hc : comp v rv <;> simp [Treap.add, Treap.addRec, hp, hc, Node.rootData]

/-- C10: for a strict weak ordering, when the values at positions `i < j` of the
inserted sequence are comparator-equivalent, the node added for position `j`
lies in the right subtree of the node added for position `i`.  Nodes are told
apart by tagging each value with its position; the tagged tree is the tree
built by `Tree::add` from the plain values, with tags erased. -/
theorem Tree.later_equivalent_value_goes_right (comp : T → T → Bool)
    (hc : StrictWeakOrder comp) (values : List T) (i j : Nat) (a b : T) (hij : i < j)
    (hi : values[i]? = some a) (hj : values[j]? = some b)
    (hab : comp a b = false) (hba : comp b a = false) :
    Node.InRightSubtree (i, a) (j, b)
        (Tree.build (fun x y : Nat × T => comp x.2 y.2) values.enum) ∧
      Node.map Prod.snd (Tree.build (fun x y : Nat × T => comp x.2 y.2) values.enum) =
        Tree.build comp values := by
  constructor
  · exact Tree.build_inRightSubtree (fun x y : Nat × T => comp x.2 y.2)
      (hc.onKey Prod.snd) values.enum i j (i, a) (j, b) hij
      (by rw [List.getElem?_enum, hi]; rfl) (by rw [List.getElem?_enum, hj]; rfl) hab hba
  · rw [Tree.map_build comp Prod.snd values.enum, List.enum_map_snd]

theorem Tree.later_equivalent_value_goes_right_witness :
    Node.InRightSubtree (0, (3 : Int)) (2, (3 : Int))
        (Tree.build (fun x y : Nat × Int => DefaultComparator x.2 y.2)
          (List.enum [3, 1, 3])) ∧
      Node.map Prod.snd (Tree.build (fun x y : Nat × Int => DefaultComparator x.2 y.2)
          (List.enum [3, 1, 3])) = Tree.build DefaultComparator [3, 1, 3] :=
  Tree.later_equivalent_value_goes_right DefaultComparator DefaultComparator_strictWeak
    [3, 1, 3] 0 2 3 3 (by decide) (by decide) (by decide) (by decide) (by decide)

/-- C11: strictly increasing integers added in order with `Tree::add` (default
comparator) give a chain of right children: no node has a left child, the tree
has as many levels as values, and every level `d` below that number holds
exactly one node. -/
theorem Tree.increasing_input_gives_chain (values : List Int)
    (h : values.Pairwise (· < ·)) :
    Tree.build DefaultComparator values = Node.rightChain values ∧
      Node.NoLeftChild (Tree.build DefaultComparator values) ∧
      (Tree.build DefaultComparator values).height = values.length ∧
      ∀ d, d < values.length → (Tree.build DefaultComparator values).levelWidth d = 1 := by
  rw [Tree.build_increasing values h]
  exact ⟨rfl, Node.rightChain_noLeftChild values, Node.rightChain_height values,
    fun d hd => Node.rightChain_levelWidth values d hd⟩

theorem Tree.increasing_input_gives_chain_witness :
    List.Pairwise (· < ·) [(1 : Int), 4, 9] ∧
      (Tree.build DefaultComparator [1, 4, 9] = Node.rightChain [1, 4, 9] ∧
      Node.NoLeftChild (Tree.build DefaultComparator [1, 4, 9]) ∧
      (Tree.build DefaultComparator [1, 4, 9]).height = [(1 : Int), 4, 9].length ∧
      ∀ d, d < [(1 : Int), 4, 9].length →
        (Tree.build DefaultComparator [1, 4, 9]).levelWidth d = 1) :=
  ⟨by decide, Tree.increasing_input_gives_chain [1, 4, 9] (by decide)⟩

/-- C12: for every comparator, subtree and pivot, the nodes of the two outputs
of `Treap::split` together are the nodes of the input, each as often as there:
the in-order sequence of the left output followed by that of the right output is
the in-order sequence of the input, so the multisets agree and the node counts
add up. -/
theorem Treap.split_keeps_every_node (comp : T → T → Bool) (v : T)
    (t : Node (Prioritized T)) :
    ((Treap.split comp v t).1.toList ++ (Treap.split comp v t).2.toList).Perm t.toList ∧
      (Treap.split comp v t).1.toList ++ (Treap.split comp v t).2.toList = t.toList := by
  rw [Treap.split_toList]
  exact ⟨List.Perm.refl _, rfl⟩

/-- C13: for every comparator (strict weak orderings included) and pivot, a
subtree with the BST order invariant and the max-heap invariant is split by
`Treap::split` into two subtrees that both have the BST order invariant and the
max-heap invariant. -/
theorem Treap.split_keeps_invariants (comp : T → T → Bool) (v : T)
    (t : Node (Prioritized T)) (ho : Node.Ordered Prioritized.value comp t)
    (hh : Treap.Heap t) :
    Node.Ordered Prioritized.value comp (Treap.split comp v t).1 ∧
      Node.Ordered Prioritized.value comp (Treap.split comp v t).2 ∧
      Treap.Heap (Treap.split comp v t).1 ∧ Treap.Heap (Treap.split comp v t).2 :=
  ⟨(Treap.split_ordered comp v t ho).1, (Treap.split_ordered comp v t ho).2,
    (Treap.split_heap comp v t hh).1, (Treap.split_heap comp v t hh).2⟩

theorem Treap.split_keeps_invariants_witness :
    Node.Ordered Prioritized.value DefaultComparator
        (Node.mk ⟨5, 3⟩ (Node.mk ⟨2, 1⟩ Node.null Node.null)
          (Node.mk ⟨8, 2⟩ Node.null Node.null)) ∧
      Treap.Heap (Node.mk (⟨5, 3⟩ : Prioritized Int) (Node.mk ⟨2, 1⟩ Node.null Node.null)
          (Node.mk ⟨8, 2⟩ Node.null Node.null)) ∧
      (Node.Ordered Prioritized.value DefaultComparator
        (Treap.split DefaultComparator 6
          (Node.mk ⟨5, 3⟩ (Node.mk ⟨2, 1⟩ Node.null Node.null)
            (Node.mk ⟨8, 2⟩ Node.null Node.null))).1 ∧
      Node.Ordered Prioritized.value DefaultComparator
        (Treap.split DefaultComparator 6
          (Node.mk ⟨5, 3⟩ (Node.mk ⟨2, 1⟩ Node.null Node.null)
            (Node.mk ⟨8, 2⟩ Node.null Node.null))).2 ∧
      Treap.Heap (Treap.split DefaultComparator 6
          (Node.mk ⟨5, 3⟩ (Node.mk ⟨2, 1⟩ Node.null Node.null)
            (Node.mk ⟨8, 2⟩ Node.null Node.null))).1 ∧
      Treap.Heap (Treap.split DefaultComparator 6
          (Node.mk ⟨5, 3⟩ (Node.mk ⟨2, 1⟩ Node.null Node.null)
            (Node.mk ⟨8, 2⟩ Node.null Node.null))).2) :=
  ⟨by simp [Node.Ordered, Node.toList, DefaultComparator],
    by simp [Treap.Heap, Treap.rootPriorityLe],
    Treap.split_keeps_invariants DefaultComparator 6 _
      (by simp [Node.Ordered, Node.toList, DefaultComparator])
      (by simp [Treap.Heap, Treap.rootPriorityLe])⟩

/-- C14: for a strict weak ordering and a subtree with the BST order invariant,
every value of the left ("less") output of `Treap::split` is comparator-less
than every value of the right ("not-less") output. -/
theorem Treap.split_left_less_than_right (comp : T → T → Bool) (hc : StrictWeakOrder comp)
    (v : T) (t : Node (Prioritized T)) (ho : Node.Ordered Prioritized.value comp t) :
    ∀ x ∈ (Treap.split comp v t).1.toList, ∀ y ∈ (Treap.split comp v t).2.toList,
      comp x.value y.value = true :=
  Treap.split_lt comp hc v t (Node.Ordered.weaklyOrdered hc Prioritized.value t ho)

theorem Treap.split_left_less_than_right_witness :
    StrictWeakOrder DefaultComparator ∧
      Node.Ordered Prioritized.value DefaultComparator
        (Node.mk ⟨5, 3⟩ (Node.mk ⟨2, 1⟩ Node.null Node.null)
          (Node.mk ⟨8, 2⟩ Node.null Node.null)) ∧
      ∀ x ∈ (Treap.split DefaultComparator 5
          (Node.mk ⟨5, 3⟩ (Node.mk ⟨2, 1⟩ Node.null Node.null)
            (Node.mk ⟨8, 2⟩ Node.null Node.null))).1.toList,
        ∀ y ∈ (Treap.split DefaultComparator 5
          (Node.mk ⟨5, 3⟩ (Node.mk ⟨2, 1⟩ Node.null Node.null)
            (Node.mk ⟨8, 2⟩ Node.null Node.null))).2.toList,
          DefaultComparator x.value y.value = true :=
  ⟨DefaultComparator_strictWeak, by simp [Node.Ordered, Node.toList, DefaultComparator],
    Treap.split_left_less_than_right DefaultComparator DefaultComparator_strictWeak 5 _
      (by simp [Node.Ordered, Node.toList, DefaultComparator])⟩

/-- C15 (counterexample): splitting the one-node subtree holding 5 by the pivot
5 under `<` puts the node in the left ("less") output although 5 is not less
than 5, and a new node holding 5 with these outputs as children breaks the
strict BST order invariant. -/
theorem Treap.split_left_holds_equivalent_value :
    StrictWeakOrder DefaultComparator ∧
      Node.Ordered Prioritized.value DefaultComparator
        (Node.mk (⟨5, 1⟩ : Prioritized Int) Node.null Node.null) ∧
      (⟨5, 1⟩ : Prioritized Int) ∈
        (Treap.split DefaultComparator 5 (Node.mk ⟨5, 1⟩ Node.null Node.null)).1.toList ∧
      DefaultComparator 5 5 = false ∧
      ¬ Node.Ordered Prioritized.value DefaultComparator
        (Node.mk ⟨5, 2⟩
          (Treap.split DefaultComparator 5 (Node.mk ⟨5, 1⟩ Node.null Node.null)).1
          (Treap.split DefaultComparator 5 (Node.mk ⟨5, 1⟩ Node.null Node.null)).2) := by
  refine ⟨DefaultComparator_strictWeak, by simp [Node.Ordered, Node.toList], by decide,
    by decide, ?_⟩
  intro h
  have h1 := h.1 ⟨5, 1⟩ (by decide)
  revert h1
  decide

/-- C15 (amended): for a strict weak ordering and a subtree with the BST order
invariant, the left output of `Treap::split` holds exactly the nodes the pivot
is not comparator-less than (values less than or equivalent to the pivot), the
right output exactly the remaining nodes (values the pivot is less than), both
in their in-order sequence; a new node holding the pivot with these outputs as
left and right child has the BST order invariant in its non-strict form. -/
theorem Treap.split_partitions_by_pivot (comp : T → T → Bool) (hc : StrictWeakOrder comp)
    (v : T) (p : Nat) (t : Node (Prioritized T))
    (ho : Node.Ordered Prioritized.value comp t) :
    (Treap.split comp v t).1.toList = t.toList.filter (fun x => !comp v x.value) ∧
      (Treap.split comp v t).2.toList = t.toList.filter (fun x => comp v x.value) ∧
      Node.WeaklyOrdered Prioritized.value comp
        (Node.mk ⟨v, p⟩ (Treap.split comp v t).1 (Treap.split comp v t).2) := by
  have hw := Node.Ordered.weaklyOrdered hc Prioritized.value t ho
  have hb := Treap.split_bounds comp hc v t hw
  have hs := Treap.split_weaklyOrdered comp v t hw
  exact ⟨(Treap.split_filter comp hc v t hw).1, (Treap.split_filter comp hc v t hw).2,
    hb.1, fun y hy => hc.asymm v y.value (hb.2 y hy), hs.1, hs.2⟩

theorem Treap.split_partitions_by_pivot_witness :
    StrictWeakOrder DefaultComparator ∧
      Node.Ordered Prioritized.value DefaultComparator
        (Node.mk (⟨5, 1⟩ : Prioritized Int) Node.null Node.null) ∧
      ((Treap.split DefaultComparator 5 (Node.mk ⟨5, 1⟩ Node.null Node.null)).1.toList =
        (Node.mk (⟨5, 1⟩ : Prioritized Int) Node.null Node.null).toList.filter
          (fun x => !DefaultComparator 5 x.value) ∧
      (Treap.split DefaultComparator 5 (Node.mk ⟨5, 1⟩ Node.null Node.null)).2.toList =
        (Node.mk (⟨5, 1⟩ : Prioritized Int) Node.null Node.null).toList.filter
          (fun x => DefaultComparator 5 x.value) ∧
      Node.WeaklyOrdered Prioritized.value DefaultComparator
        (Node.mk ⟨5, 2⟩
          (Treap.split DefaultComparator 5 (Node.mk ⟨5, 1⟩ Node.null Node.null)).1
          (Treap.split DefaultComparator 5 (Node.mk ⟨5, 1⟩ Node.null Node.null)).2)) :=
  ⟨DefaultComparator_strictWeak, by simp [Node.Ordered, Node.toList],
    Treap.split_partitions_by_pivot DefaultComparator DefaultComparator_strictWeak 5 2 _
      (by simp [Node.Ordered, Node.toList])⟩

/-- C17: with the default comparator on integers, the in-order sequence of
values of the treap built by `Treap::add` from any sequence of (value,
priority) pairs is non-decreasing and is a permutation of the inserted
values. -/
theorem Treap.inorder_sorted_permutation (items : List (Int × Nat)) :
    ((Treap.build DefaultComparator items).toList.map Prioritized.value).Pairwise (· ≤ ·) ∧
      ((Treap.build DefaultComparator items).toList.map Prioritized.value).Perm
        (items.map Prod.fst) := by
  constructor
  · exact Treap.weaklyOrdered_sorted _
      (Treap.build_weaklyOrdered_all DefaultComparator DefaultComparator_strictWeak items)
  · have h := (Treap.build_toList_perm DefaultComparator items).map Prioritized.value
    simpa [List.map_map, Function.comp_def] using h

/-- C16: for every tree `countWidth` returns a result, and the result is the
largest number of nodes on a level of depth at least 1 (0 when there is no node
there); it equals the maximum level width over all levels exactly when the tree
is empty or its root has a child. -/
theorem countWidth_counts_levels_below_root {D : Type} (t : Node D) :
    ∃ w, countWidth t = some w ∧ (∀ d, 1 ≤ d → t.levelWidth d ≤ w) ∧
      (∃ d, 1 ≤ d ∧ t.levelWidth d = w) ∧
      (w = t.maxLevelWidth ↔ (t.isNull = true ∨ t.hasChild = true)) := by
  obtain ⟨w, hw, hall, d, hd, hex⟩ := countWidth_spec t
  refine ⟨w, hw, hall, ⟨d, hd, hex⟩, ?_⟩
  constructor
  · intro heq
    by_contra hcon
    simp only [not_or, Bool.not_eq_true] at hcon
    have h0 : w = 0 := by rw [← hex]; exact Node.levelWidth_of_no_child t hcon.2 d hd
    have h1 := Node.levelWidth_le_maxLevelWidth t 0
    rw [Node.levelWidth_zero_of_nonnull t hcon.1] at h1
    omega
  · intro h
    rcases h with h | h
    · cases t with
      | null =>
        rw [Node.levelWidth_null] at hex
        rw [← hex]
        rfl
      | mk x l r => simp [Node.isNull] at h
    · have h1 := Node.levelWidth_one_pos t h
      have h2 := hall 1 (le_refl _)
      have h3 := Node.levelWidth_le_maxLevelWidth t d
      rcases Node.maxLevelWidth_attained t with h4 | ⟨e, h4⟩
      · omega
      · cases e with
        | zero =>
          have := Node.levelWidth_zero_le t
          omega
        | succ e =>
          have := hall (e + 1) (by omega)
          omega

/-- C19: for every comparator, when the priorities are non-increasing in
insertion order, the treap built by `Treap::add` has the links and values of the
tree built by `Tree::add` from the same values, so both widths are equal and
their difference is 0. -/
theorem Treap.nonincreasing_priorities_give_bst (comp : T → T → Bool)
    (items : List (T × Nat)) (h : (items.map Prod.snd).Pairwise (· ≥ ·)) :
    Node.map Prioritized.value (Treap.build comp items) =
        Tree.build comp (items.map Prod.fst) ∧
      ∃ a b, Treap.maxWidth (Treap.build comp items) = some a ∧
        Tree.maxWidth (Tree.build comp (items.map Prod.fst)) = some b ∧
        (a : Int) - (b : Int) = 0 := by
  have hm := Treap.map_build_of_nonincreasing comp items h
  obtain ⟨w, hw, _⟩ := countWidth_spec (Treap.build comp items)
  refine ⟨hm, w, w, hw, ?_, sub_self _⟩
  rw [Tree.maxWidth, ← hm, countWidth_map]
  exact hw

theorem Treap.nonincreasing_priorities_give_bst_witness :
    List.Pairwise (· ≥ ·) (List.map Prod.snd [((3 : Int), 5), (1, 5), (4, 2)]) ∧
      (Node.map Prioritized.value
          (Treap.build DefaultComparator [((3 : Int), 5), (1, 5), (4, 2)]) =
        Tree.build DefaultComparator (List.map Prod.fst [((3 : Int), 5), (1, 5), (4, 2)]) ∧
      ∃ a b, Treap.maxWidth (Treap.build DefaultComparator [((3 : Int), 5), (1, 5), (4, 2)]) =
          some a ∧
        Tree.maxWidth
          (Tree.build DefaultComparator (List.map Prod.fst [((3 : Int), 5), (1, 5), (4, 2)])) =
          some b ∧
        (a : Int) - (b : Int) = 0) :=
  ⟨by decide,
    Treap.nonincreasing_priorities_give_bst DefaultComparator [(3, 5), (1, 5), (4, 2)]
      (by decide)⟩

/-- C18: with the default comparator on integers, two insertion orders of the
same (value, priority) pairs, with pairwise distinct values and pairwise
distinct priorities, give the same treap, hence the same `maxWidth`. -/
theorem Treap.shape_independent_of_insertion_order (items1 items2 : List (Int × Nat))
    (h : items1.Perm items2) (hv : (items1.map Prod.fst).Nodup)
    (hp : (items1.map Prod.snd).Nodup) :
    Treap.build DefaultComparator items1 = Treap.build DefaultComparator items2 ∧
      Treap.maxWidth (Treap.build DefaultComparator items1) =
        Treap.maxWidth (Treap.build DefaultComparator items2) := by
  have he := Treap.build_perm items1 items2 h hv hp
  exact ⟨he, by rw [he]⟩

theorem Treap.shape_independent_of_insertion_order_witness :
    List.Perm [((1 : Int), 5), (2, 9), (3, 1)] [(3, 1), (1, 5), (2, 9)] ∧
      (List.map Prod.fst [((1 : Int), 5), (2, 9), (3, 1)]).Nodup ∧
      (List.map Prod.snd [((1 : Int), 5), (2, 9), (3, 1)]).Nodup ∧
      (Treap.build DefaultComparator [((1 : Int), 5), (2, 9), (3, 1)] =
          Treap.build DefaultComparator [(3, 1), (1, 5), (2, 9)] ∧
        Treap.maxWidth (Treap.build DefaultComparator [((1 : Int), 5), (2, 9), (3, 1)]) =
          Treap.maxWidth (Treap.build DefaultComparator [(3, 1), (1, 5), (2, 9)])) :=
  ⟨by decide, by decide, by decide,
    Treap.shape_independent_of_insertion_order [(1, 5), (2, 9), (3, 1)]
      [(3, 1), (1, 5), (2, 9)] (by decide) (by decide) (by decide)⟩

/-- C20: on every tree the iterative `Tree::_postOrder` ends and applies the
action to the same nodes in the same order as the recursive walk (left subtree,
right subtree, node).  Nodes are told apart by their address: the walk visits
exactly the nodes of the tree, as many as the tree has, and a node visited
before another one is never that node or one of its ancestors, so no node is
visited twice and each comes after all nodes of its two subtrees. -/
theorem Tree.postOrder_visits_children_first {D : Type} (t : Node D) :
    Tree.postOrder t = some (Treap.postOrder [] t) ∧
      (Treap.postOrder [] t).length = t.size ∧
      (∀ x, x ∈ Treap.postOrder [] t ↔
        t.subtreeAt x.addr = some (Node.mk x.data x.left x.right)) ∧
      (Treap.postOrder [] t).Pairwise (fun x y => ∀ q, y.addr ≠ x.addr ++ q) := by
  refine ⟨Tree.postOrder_eq t, Treap.postOrder_length [] t, ?_,
    Treap.postOrder_children_first [] t⟩
  intro x
  rw [Treap.mem_postOrder]
  constructor
  · rintro ⟨q, hq, hs⟩
    rw [hq]
    simpa using hs
  · intro h
    exact ⟨x.addr, by simp, h⟩

end Claims

end CartesianTree
